import Mathlib

/-!
Verification development for the Constrained Hidden Markov Model repository.

Shallow embedding conventions:
* `f64` probabilities are modelled as exact rationals (`ℚ`); the spec's 1e-9
  tolerances become exact equalities.
* `HashMap<String, _>` is modelled as an association list with unique keys in
  insertion order; iteration order is the list order.
* A Rust panic (failed `assert!`, `unwrap()` on `None`, indexing a map or
  vector with a missing key) is modelled by an `Option` returning `none`.
* The third-party phonetic routine behind `RhymesWithConstraint`
  (`ttaw::metaphone::rhyme`) is an external collaborator and is passed in as
  an uninterpreted boolean function (`oracle`).
-/

namespace Chmm

/-- Probability values (`f64` in the source, exact rationals here). -/
abbrev Prob := ℚ

/-- Inner probability map `HashMap<String, f64>` as an association list. -/
abbrev Row := List (String × Prob)

/-- Outer probability matrix `HashMap<String, HashMap<String, f64>>`. -/
abbrev PMatrix := List (String × Row)

/-- `utils.rs`: `pub(crate) const START_TOKEN: &str = "<<START>>";` -/
def START_TOKEN : String := "<<START>>"

/-- Association-list lookup, the `map[key]` / `map.get(key)` access of the
source (`none` models a missing key). -/
def alookup (k : String) : List (String × α) → Option α
  | [] => none
  | p :: ps => if p.1 = k then some p.2 else alookup k ps

/-- Association-list insertion, the `map.insert(key, value)` of the source:
replaces the value of an existing key in place, appends a fresh key. -/
def setk (k : String) (v : α) : List (String × α) → List (String × α)
  | [] => [(k, v)]
  | p :: ps => if p.1 = k then (k, v) :: ps else p :: setk k v ps

/-- Sum of the values of an inner map (`outer_value.values().sum::<f64>()`). -/
def rowSum (r : Row) : Prob := (r.map (fun q => q.2)).sum

/-- Splits a character list at every separator occurrence, keeping empty
pieces, like Rust's `str::split` with a single-character pattern. -/
def splitOnCharAux (sep : Char) : List Char → List Char → List (List Char)
  | acc, [] => [acc.reverse]
  | acc, c :: cs =>
    if c = sep then acc.reverse :: splitOnCharAux sep [] cs
    else splitOnCharAux sep (c :: acc) cs

def splitOnChar (sep : Char) (s : String) : List String :=
  (splitOnCharAux sep [] s.toList).map (fun l => String.mk l)

/-- Rust's `str::split_whitespace`: splits at runs of whitespace, producing
only nonempty pieces. -/
def splitWS (s : String) : List String :=
  ((splitOnCharAux ' ' [] s.toList).filter (fun l => !l.isEmpty)).map
    (fun l => String.mk l)

/-- Rust's `String::to_lowercase` restricted to the ASCII range used by the
repository's data (Lean's `Char.toLower`). -/
def lowercase (s : String) : String := String.mk (s.toList.map Char.toLower)

/-- Rust's `char::to_ascii_lowercase`. -/
def asciiLower (c : Char) : Char :=
  if 'A' ≤ c ∧ c ≤ 'Z' then Char.ofNat (c.toNat + 32) else c

/-! ## Constraints (`src/constraints/*`)

The source's trait-object hierarchy is a closed set of five constraint kinds;
we model it as an inductive type.  The `new` constructors below mirror the
Rust constructors (which lowercase their stored string). -/

inductive Constraint where
  | empty : Constraint
  | matches (state : String) : Constraint
  | startsWithLetter (letter : Char) : Constraint
  | rhymesWith (word : String) : Constraint
  | multi (constraints : List Constraint) (require_all : Bool) : Constraint

/-- `MatchesConstraint::new` lowercases the stored state. -/
def MatchesConstraint.new (state : String) : Constraint :=
  .matches (lowercase state)

/-- `RhymesWithConstraint::new` lowercases the stored word. -/
def RhymesWithConstraint.new (word : String) : Constraint :=
  .rhymesWith (lowercase word)

/-- `StartsWithLetterConstraint::new` stores the letter as given. -/
def StartsWithLetterConstraint.new (letter : Char) : Constraint :=
  .startsWithLetter letter

mutual

/-- `is_satisfied_by_state` for each constraint kind; `oracle` is the external
`ttaw::metaphone::rhyme` routine. -/
def isSat (oracle : String → String → Bool) : Constraint → String → Bool
  | .empty, _ => true
  | .matches t, s => lowercase s == t
  | .startsWithLetter letter, s =>
    match s.toList.head? with
    | none => false
    | some first => asciiLower first == asciiLower letter
  | .rhymesWith w, s => oracle w (lowercase s)
  | .multi cs true, s => isSatAll oracle cs s
  | .multi cs false, s => isSatAny oracle cs s

/-- `MultiConstraint` with `require_all`: all children satisfied. -/
def isSatAll (oracle : String → String → Bool) : List Constraint → String → Bool
  | [], _ => true
  | c :: cs, s => isSat oracle c s && isSatAll oracle cs s

/-- `MultiConstraint` without `require_all`: some child satisfied. -/
def isSatAny (oracle : String → String → Bool) : List Constraint → String → Bool
  | [], _ => false
  | c :: cs, s => isSat oracle c s || isSatAny oracle cs s

end

/-! ## The base model (`src/hidden_markov.rs`) -/

structure HiddenMarkov where
  markov_order : ℕ
  hidden_probs : PMatrix
  observed_probs : PMatrix

/-- `HiddenMarkov::split_token`: the sentinel maps to itself; otherwise the
pieces around the first `:` (a token without `:` panics on `unwrap`). -/
def splitToken (token : String) : Option (String × String) :=
  if token = START_TOKEN then some (START_TOKEN, START_TOKEN)
  else
    match splitOnChar ':' token with
    | observed :: hidden :: _ => some (observed, hidden)
    | _ => none

/-- Adds 1 to the value of `k2` in an inner map, inserting it with 0 first
when missing (`entry(..).or_insert(0.0)` followed by `insert(.., old + 1)`). -/
def bumpRow (k2 : String) : Row → Row
  | [] => [(k2, 0 + 1)]
  | q :: qs => if q.1 = k2 then (k2, q.2 + 1) :: qs else q :: bumpRow k2 qs

/-- Adds 1 to `m[k1][k2]`, inserting missing entries first
(`increment_hidden` / `increment_observed`). -/
def bumpCount (k1 k2 : String) : PMatrix → PMatrix
  | [] => [(k1, bumpRow k2 [])]
  | e :: es => if e.1 = k1 then (k1, bumpRow k2 e.2) :: es else e :: bumpCount k1 k2 es

/-- The token grouping of `process_line`: tokens are pushed one at a time and
flushed as a chunk when the running count reaches `markov_order`; a trailing
incomplete chunk is dropped. -/
def chunkAux (k : ℕ) : List String → ℕ → List String → List (List String)
  | _, _, [] => []
  | acc, cnt, t :: ts =>
    if cnt + 1 ≥ k then (acc ++ [t]) :: chunkAux k [] 0 ts
    else chunkAux k (acc ++ [t]) (cnt + 1) ts

/-- `increment`: zips the previous and current chunk, splits each token, joins
the pieces with spaces and bumps the hidden-transition and observed-emission
counts (the hidden increment happens first, then the observed one on the
same `full_next_hidden` key).  The state is the
(hidden counts, observed counts) pair of the model being trained. -/
def incrementTokens (prev cur : List String) (st : PMatrix × PMatrix) :
    Option (PMatrix × PMatrix) :=
  ((prev.zip cur).mapM (fun pc =>
      (splitToken pc.1).bind (fun p =>
        (splitToken pc.2).map (fun c => (p.2, c.2, c.1))))).map
    (fun parts =>
      match st with
      | (hid, obs) =>
        let fullHidden := String.intercalate " " (parts.map (fun x => x.1))
        let fullNextHidden := String.intercalate " " (parts.map (fun x => x.2.1))
        let fullNextObserved := String.intercalate " " (parts.map (fun x => x.2.2))
        (bumpCount fullHidden fullNextHidden hid,
         bumpCount fullNextHidden fullNextObserved obs))

/-- The chunk loop of `process_line`: the first chunk's context is
`markov_order` copies of the sentinel, afterwards the previous chunk. -/
def processChunks (prev : List String) (st : PMatrix × PMatrix) :
    List (List String) → Option (PMatrix × PMatrix)
  | [] => some st
  | c :: cs => (incrementTokens prev c st).bind (fun st2 => processChunks c st2 cs)

def processLine (k : ℕ) (st : PMatrix × PMatrix) (line : String) :
    Option (PMatrix × PMatrix) :=
  processChunks (List.replicate k START_TOKEN) st (chunkAux k [] 0 (splitWS line))

def processLines (k : ℕ) (st : PMatrix × PMatrix) :
    List String → Option (PMatrix × PMatrix)
  | [] => some st
  | l :: ls => (processLine k st l).bind (fun st2 => processLines k st2 ls)

/-- `normalize_nested_map`: divides every inner value by its row's total
(the source has no zero-sum guard; rows produced by training always have a
positive sum). -/
def normalizeNested (d : PMatrix) : PMatrix :=
  d.map (fun e => (e.1, e.2.map (fun q => (q.1, q.2 / rowSum e.2))))

/-- `HiddenMarkov::train`: clear, process each newline-separated line,
normalize. -/
def HiddenMarkov.train (m : HiddenMarkov) (data : String) : Option HiddenMarkov :=
  (processLines m.markov_order ([], []) (splitOnChar '\n' data)).map
    (fun st =>
      match st with
      | (hid, obs) => ⟨m.markov_order, normalizeNested hid, normalizeNested obs⟩)

/-- `HiddenMarkov::new`: fresh model trained on `data`. -/
def HiddenMarkov.new (markov_order : ℕ) (data : String) : Option HiddenMarkov :=
  HiddenMarkov.train ⟨markov_order, [], []⟩ data

/-! ## The constrained positional model (`src/constrained_hidden_markov.rs`) -/

structure ConstrainedHiddenMarkov where
  hidden_markov_model : HiddenMarkov
  sequence_length : ℕ
  hidden_probs : List PMatrix
  observed_probs : List PMatrix
  hidden_constraints : List Constraint
  observed_constraints : List Constraint

/-- `ConstrainedHiddenMarkov::new`: missing constraint lists default to
all-`Empty` lists of length `sequence_length`; `assert!(sequence_length > 1)`
and `check_sequence_and_constraint_length` panic (= `none`) on violation. -/
def ConstrainedHiddenMarkov.new (hidden_markov_model : HiddenMarkov)
    (sequence_length : ℕ) (hidden_constraints observed_constraints :
      Option (List Constraint)) : Option ConstrainedHiddenMarkov :=
  if sequence_length ≤ 1 then none
  else if sequence_length =
        (hidden_constraints.getD (List.replicate sequence_length .empty)).length ∧
      sequence_length =
        (observed_constraints.getD (List.replicate sequence_length .empty)).length then
    some ⟨hidden_markov_model, sequence_length, [], [],
      hidden_constraints.getD (List.replicate sequence_length .empty),
      observed_constraints.getD (List.replicate sequence_length .empty)⟩
  else none

/-- Zeroes, in place, every inner entry whose key satisfies `p`. -/
def zeroRowIf (p : String → Bool) (row : Row) : Row :=
  row.map (fun q => if p q.1 then (q.1, 0) else q)

/-- Zeroes, in every row of a matrix, the entries whose key satisfies `p`. -/
def zeroMatIf (p : String → Bool) (d : PMatrix) : PMatrix :=
  d.map (fun e => (e.1, zeroRowIf p e.2))

/-- `remove_constrain_violating_hidden_states` /
`remove_constrain_violating_observed_states` for one position: zero every
inner entry whose key fails the position's constraint. -/
def maskMat (oracle : String → String → Bool) (c : Constraint) (d : PMatrix) :
    PMatrix :=
  zeroMatIf (fun k => !isSat oracle c k) d

/-- `get_zero_sum_outer_keys`: the outer keys whose inner values sum to 0. -/
def deadKeys (d : PMatrix) : List String :=
  (d.filter (fun e => decide (rowSum e.2 = 0))).map (fun e => e.1)

/-- First loop of `remove_dead_states`: at each position, zero the hidden
entries whose target key has an all-zero emission row at that position
(the loop direction does not matter here; positions are independent). -/
def removeDeadObserved (hps ops : List PMatrix) : List PMatrix :=
  List.zipWith (fun hp op => zeroMatIf (fun k => decide (k ∈ deadKeys op)) hp)
    hps ops

/-- Second loop of `remove_dead_states`, working backwards: in the previous
position, zero the transitions into keys that are transition-dead (zero-sum)
or entirely absent in the already-processed current position. -/
def removeDeadHidden : List PMatrix → List PMatrix
  | [] => []
  | [h] => [h]
  | h :: g :: t =>
    match removeDeadHidden (g :: t) with
    | [] => [h]
    | gdone :: tdone =>
      zeroMatIf (fun k => decide (k ∈ deadKeys gdone) || (alookup k gdone).isNone)
          h :: gdone :: tdone

/-- `remove_dead_states` (observed matrices are read but not modified). -/
def remove_dead_states (hps ops : List PMatrix) : List PMatrix :=
  removeDeadHidden (removeDeadObserved hps ops)

/-- Division of a row by its own sum when that sum is nonzero (`e_jk / beta_j`
in `renormalize`; rows with a zero sum are left as they are). -/
def rowNormalize (r : Row) : Row :=
  if rowSum r = 0 then r else r.map (fun q => (q.1, q.2 / rowSum r))

/-- Observed half of one `renormalize` iteration: records `beta_j` (the sum of
the masked emission weights of every hidden key `j`) and divides each nonzero
row by its `beta_j`. -/
def renormObs (op : PMatrix) : PMatrix × Row :=
  (op.map (fun e => (e.1, rowNormalize e.2)),
   op.map (fun e => (e.1, rowSum e.2)))

/-- Pairs every transition entry with `betas[i][inner_key]`; a target key
missing from the betas map is an indexing panic in the source (`none`). -/
def zipBetas (betas : Row) : Row → Option (List (String × Prob × Prob))
  | [] => some []
  | q :: qs =>
    match alookup q.1 betas with
    | none => none
    | some b => (zipBetas betas qs).map (fun l => (q.1, b, q.2) :: l)

/-- Hidden half of one `renormalize` iteration for a single outer row:
computes `alpha_j` (with the `alpha^(i+1)` factor when not at the last
position, defaulting to 0 for keys absent from the next alphas) and, when
`alpha_j ≠ 0`, rescales each entry to `beta_k * [alpha^(i+1)_k *] z_jk / alpha_j`. -/
def renormRow (betas : Row) (alphaNext : Option Row) (row : Row) :
    Option (Row × Prob) :=
  (zipBetas betas row).map (fun l =>
    let fac : String → Prob → Prob := fun k b =>
      match alphaNext with
      | none => b
      | some an => b * ((alookup k an).getD 0)
    let a := (l.map (fun t => fac t.1 t.2.1 * t.2.2)).sum
    if a = 0 then (row, a)
    else (l.map (fun t => (t.1, fac t.1 t.2.1 * t.2.2 / a)), a))

/-- Hidden half of one `renormalize` iteration over the whole matrix,
returning the rescaled matrix and the `alphas[i]` map. -/
def renormMat (betas : Row) (alphaNext : Option Row) :
    PMatrix → Option (PMatrix × Row)
  | [] => some ([], [])
  | e :: es =>
    match renormRow betas alphaNext e.2 with
    | none => none
    | some ra =>
      (renormMat betas alphaNext es).map
        (fun r => ((e.1, ra.1) :: r.1, (e.1, ra.2) :: r.2))

/-- `renormalize`, processed from the last position backwards (the source
iterates `i` from `sequence_length - 1` down to 0; the singleton case is the
`i == sequence_length - 1` branch).  Returns the renormalized
(hidden, observed) pair per position and the alphas of the first position. -/
def renormAux : List (PMatrix × PMatrix) → Option (List (PMatrix × PMatrix) × Row)
  | [] => some ([], [])
  | [x] =>
    (renormMat (renormObs x.2).2 none x.1).map
      (fun r => ([(r.1, (renormObs x.2).1)], r.2))
  | x :: y :: t =>
    match renormAux (y :: t) with
    | none => none
    | some ra =>
      (renormMat (renormObs x.2).2 (some ra.2) x.1).map
        (fun r => ((r.1, (renormObs x.2).1) :: ra.1, r.2))

/-- `ConstrainedHiddenMarkov::train`: clear, duplicate the base matrices per
position, mask constraint violations, remove dead states, renormalize.
`oracle` is the external phonetic routine used by rhyme constraints. -/
def ConstrainedHiddenMarkov.train (oracle : String → String → Bool)
    (m : ConstrainedHiddenMarkov) : Option ConstrainedHiddenMarkov :=
  (renormAux
      ((remove_dead_states
          (List.zipWith (fun c d => maskMat oracle c d) m.hidden_constraints
            (List.replicate m.sequence_length m.hidden_markov_model.hidden_probs))
          (List.zipWith (fun c d => maskMat oracle c d) m.observed_constraints
            (List.replicate m.sequence_length m.hidden_markov_model.observed_probs))).zip
        (List.zipWith (fun c d => maskMat oracle c d) m.observed_constraints
          (List.replicate m.sequence_length m.hidden_markov_model.observed_probs)))).map
    (fun r =>
      { m with
        hidden_probs := r.1.map (fun p => p.1),
        observed_probs := r.1.map (fun p => p.2) })

/-- `next_token`: walks the map in iteration order accumulating weights and
returns the first key whose running sum exceeds the random draw `r`
(uniform in `[0,1)` in the source); returns `""` when the total never
exceeds `r`. -/
def nextTokenAux (r : Prob) : Row → Prob → String
  | [], _ => ""
  | q :: qs, s => if s + q.2 > r then q.1 else nextTokenAux r qs (s + q.2)

def next_token (row : Row) (r : Prob) : String := nextTokenAux r row 0

/-- `sample_sequence`, with the stream of random draws made explicit (the
source draws from a thread-local generator at each `next_token` call) and the
output kept as the list of `(surface, hidden)` tokens that the source joins
into a `"surface:hidden"` space-separated string.  A position whose current
hidden context is missing from `hidden_probs[i]` stops early; a position
whose sampled hidden key is missing from `observed_probs[i]` emits nothing
but continues. -/
def sampleSeqAux : List (PMatrix × PMatrix) → String → List Prob →
    List (String × String)
  | [], _, _ => []
  | x :: rest, cur, rs =>
    match alookup cur x.1 with
    | none => []
    | some row =>
      let h := next_token row (rs.headD 0)
      match alookup h x.2 with
      | none => sampleSeqAux rest h rs.tail
      | some orow =>
        (next_token orow (rs.tail.headD 0), h) :: sampleSeqAux rest h rs.tail.tail

def sample_sequence (m : ConstrainedHiddenMarkov) (rs : List Prob) :
    List (String × String) :=
  sampleSeqAux (m.hidden_probs.zip m.observed_probs) START_TOKEN rs

/-- `get_sequence_probability`, walking tokens and positions together;
`none` models the source's panics: a token without `:`, a position index
beyond the trained length, or a missing context/target key in the positional
maps. -/
def seqProbAux : List String → List PMatrix → List PMatrix → String → Option Prob
  | [], _, _, _ => some 1
  | t :: ts, hps, ops, cur =>
    match splitToken t with
    | none => none
    | some oh =>
      match hps with
      | [] => none
      | hp :: hps2 =>
        match ops with
        | [] => none
        | op :: ops2 =>
          match alookup cur hp with
          | none => none
          | some row =>
            match alookup oh.2 row with
            | none => none
            | some z =>
              match alookup oh.2 op with
              | none => none
              | some orow =>
                match alookup oh.1 orow with
                | none => none
                | some e => (seqProbAux ts hps2 ops2 oh.2).map (fun p => z * e * p)

def get_sequence_probability (m : ConstrainedHiddenMarkov) (sequence : String) :
    Option Prob :=
  seqProbAux (splitWS sequence) m.hidden_probs m.observed_probs START_TOKEN

/-! ## The constraint DSL parser (`src/constraint_parser.rs`) -/

/-- The capture group of the regex `^SW\((.*)\)` / `^RW\((.*)\)` after the
three-character opener: everything up to the last `)` (greedy `.*`), `none`
when no `)` remains. -/
def lastParenCapture (l : List Char) : Option (List Char) :=
  match l.reverse.dropWhile (fun c => !(c = ')')) with
  | ')' :: rest => some rest.reverse
  | _ => none

/-- `str_to_constraint`: `SW(..)` and `RW(..)` by regex, `NC` by prefix,
anything else falls back to an exact-match constraint.  `none` models the
`unwrap` panic on an empty `SW()` capture. -/
def str_to_constraint (s : String) : Option Constraint :=
  match
    (match s.toList with
      | 'S' :: 'W' :: '(' :: rest => lastParenCapture rest
      | _ => none) with
  | some cap =>
    match cap.head? with
    | none => none
    | some first => some (StartsWithLetterConstraint.new first)
  | none =>
    match
      (match s.toList with
        | 'R' :: 'W' :: '(' :: rest => lastParenCapture rest
        | _ => none) with
    | some cap => some (RhymesWithConstraint.new (String.mk cap))
    | none =>
      match s.toList with
      | 'N' :: 'C' :: _ => some .empty
      | _ => some (MatchesConstraint.new s)

/-- Rust's `str::parse::<i32>`: optional sign, at least one digit, all
digits, value within the `i32` range. -/
def parseI32 (s : String) : Option Int :=
  let signDigits : Int × List Char :=
    match s.toList with
    | '+' :: t => (1, t)
    | '-' :: t => (-1, t)
    | t => (1, t)
  match signDigits.2 with
  | [] => none
  | ds =>
    if ds.all (fun c => decide ('0' ≤ c ∧ c ≤ '9')) then
      let v : Int := signDigits.1 *
        (ds.foldl (fun a c => a * 10 + (c.toNat - 48)) 0 : ℕ)
      if -(2 ^ 31) ≤ v ∧ v < 2 ^ 31 then some v else none
    else none

/-- `add_multi_constraint`: the piece before the first `*` is parsed as one
constraint, the piece after it as the replication count; the constraint is
pushed that many times onto the hidden list and then that many times onto
the observed list (a negative count pushes nothing). -/
def add_multi_constraint (line : String)
    (hidden observed : List Constraint) :
    Option (List Constraint × List Constraint) :=
  match splitOnChar '*' line with
  | a :: b :: _ =>
    match str_to_constraint a with
    | none => none
    | some c =>
      match parseI32 b with
      | none => none
      | some n =>
        some (hidden ++ List.replicate n.toNat c,
              observed ++ List.replicate n.toNat c)
  | _ => none

/-- `add_constraint`: `OBS_SPEC:HID_SPEC` pushes one observed and one hidden
constraint. -/
def add_constraint (line : String) (hidden observed : List Constraint) :
    Option (List Constraint × List Constraint) :=
  match splitOnChar ':' line with
  | o :: h :: _ =>
    match str_to_constraint o, str_to_constraint h with
    | some co, some ch => some (hidden ++ [ch], observed ++ [co])
    | _, _ => none
  | _ => none

/-- The line loop of `parse_constraint`: blank lines are skipped, lines
containing `*` go through `add_multi_constraint`, the rest through
`add_constraint`. -/
def parse_constraint_lines : List String → List Constraint → List Constraint →
    Option (List Constraint × List Constraint)
  | [], hidden, observed => some (hidden, observed)
  | l :: ls, hidden, observed =>
    if l = "" then parse_constraint_lines ls hidden observed
    else if l.toList.contains '*' then
      match add_multi_constraint l hidden observed with
      | none => none
      | some ho => parse_constraint_lines ls ho.1 ho.2
    else
      match add_constraint l hidden observed with
      | none => none
      | some ho => parse_constraint_lines ls ho.1 ho.2

def parse_constraint (constraint_string : String) :
    Option (List Constraint × List Constraint) :=
  parse_constraint_lines (splitOnChar '\n' constraint_string) [] []

/-! ## Specification-side definitions

Closed forms and invariants used to state and prove the claims: the factor
and normalizer computed by `renormalize` for one transition row, a pure
(`Option`-free) closed form of `renormalize` on inputs where its map indexing
cannot panic, and the predicates describing well-formed probability
matrices. -/

/-- The factor `beta_k` (last position) or `beta_k * alpha^(i+1)_k` (earlier
positions) that `renormalize` applies to a transition entry with target `k`;
missing keys default to 0 exactly as in the source's `match` on
`alphas[i+1].get(..)`. -/
def facFor (betas : Row) (alphaNext : Option Row) (k : String) : Prob :=
  match alphaNext with
  | none => (alookup k betas).getD 0
  | some an => (alookup k betas).getD 0 * ((alookup k an).getD 0)

/-- The normalizer `alpha_j` of one transition row. -/
def rowAlpha (betas : Row) (alphaNext : Option Row) (row : Row) : Prob :=
  (row.map (fun q => facFor betas alphaNext q.1 * q.2)).sum

/-- One renormalized transition row: rescaled when `alpha_j ≠ 0`, untouched
otherwise. -/
def rowRenorm (betas : Row) (alphaNext : Option Row) (row : Row) : Row :=
  if rowAlpha betas alphaNext row = 0 then row
  else row.map (fun q =>
    (q.1, facFor betas alphaNext q.1 * q.2 / rowAlpha betas alphaNext row))

/-- The closed form of `renormAux` (positions processed from the back; the
betas of a position pair are the emission row sums). -/
def renormSpec : List (PMatrix × PMatrix) → List (PMatrix × PMatrix) × Row
  | [] => ([], [])
  | [x] =>
    ([(x.1.map (fun e =>
          (e.1, rowRenorm (x.2.map (fun o => (o.1, rowSum o.2))) none e.2)),
       x.2.map (fun e => (e.1, rowNormalize e.2)))],
     x.1.map (fun e =>
       (e.1, rowAlpha (x.2.map (fun o => (o.1, rowSum o.2))) none e.2)))
  | x :: y :: t =>
    ((x.1.map (fun e =>
        (e.1, rowRenorm (x.2.map (fun o => (o.1, rowSum o.2)))
          (some (renormSpec (y :: t)).2) e.2)),
      x.2.map (fun e => (e.1, rowNormalize e.2))) :: (renormSpec (y :: t)).1,
     x.1.map (fun e =>
       (e.1, rowAlpha (x.2.map (fun o => (o.1, rowSum o.2)))
         (some (renormSpec (y :: t)).2) e.2)))

/-- Every weight of a row is nonnegative. -/
@[reducible] def RowNonneg (row : Row) : Prop := ∀ q ∈ row, 0 ≤ q.2

/-- Every weight of a matrix is nonnegative. -/
@[reducible] def MatNonneg (d : PMatrix) : Prop := ∀ e ∈ d, RowNonneg e.2

/-- The normalization invariant of the spec: each row sums to one or is
entirely zero. -/
@[reducible] def NormedMat (d : PMatrix) : Prop :=
  ∀ e ∈ d, rowSum e.2 = 1 ∨ ∀ q ∈ e.2, q.2 = 0

/-- Every inner (target) key of `hp` is an outer key of `op`; for a base
model this says every transition target has an emission row, which holds for
trained base models because `increment` bumps both maps on the same
`full_next_hidden` key. -/
@[reducible] def TargetsSub (hp op : PMatrix) : Prop :=
  ∀ e ∈ hp, ∀ q ∈ e.2, (alookup q.1 op).isSome

/-- After the first `remove_dead_states` sweep: a nonzero transition entry
points at a hidden key whose emission row exists and has nonzero sum. -/
def Step1Prop (hp op : PMatrix) : Prop :=
  ∀ e ∈ hp, ∀ q ∈ e.2, q.2 ≠ 0 →
    ∃ orow, alookup q.1 op = some orow ∧ rowSum orow ≠ 0

/-- After the second `remove_dead_states` sweep: a nonzero transition entry
points at a key that exists in the next position with nonzero outgoing sum. -/
def Step2Prop (hp hpNext : PMatrix) : Prop :=
  ∀ e ∈ hp, ∀ q ∈ e.2, q.2 ≠ 0 →
    ∃ nrow, alookup q.1 hpNext = some nrow ∧ rowSum nrow ≠ 0

/-- `Step2Prop` holds between every pair of consecutive hidden matrices. -/
def ChainH : List PMatrix → Prop
  | [] => True
  | [_] => True
  | h :: g :: t => Step2Prop h g ∧ ChainH (g :: t)

/-- Every nonzero entry of every row satisfies the constraint (the state of a
matrix after `remove_constrain_violating_states`, preserved to the end of
training). -/
@[reducible] def SatInv (oracle : String → String → Bool) (c : Constraint) (d : PMatrix) :
    Prop :=
  ∀ e ∈ d, ∀ q ∈ e.2, q.2 ≠ 0 → isSat oracle c q.1 = true

/-- Entry-by-entry zero preservation between two structurally equal rows: a
nonzero output weight comes from a nonzero input weight at the same key. -/
def ZeroPresRow (pre post : Row) : Prop :=
  List.Forall₂ (fun q q2 => q.1 = q2.1 ∧ (q2.2 ≠ 0 → q.2 ≠ 0)) pre post

/-- Entry-by-entry zero preservation between two structurally equal
matrices. -/
def ZeroPresMat (pre post : PMatrix) : Prop :=
  List.Forall₂ (fun e e2 => e.1 = e2.1 ∧ ZeroPresRow e.2 e2.2) pre post

/-- A nonzero transition entry targets a hidden key whose emission row exists
and sums to one (the state after `renormalize` that makes full-length
sampling emit at every position). -/
@[reducible] def EmitLink (hp op : PMatrix) : Prop :=
  ∀ e ∈ hp, ∀ q ∈ e.2, q.2 ≠ 0 →
    ∃ orow, alookup q.1 op = some orow ∧ rowSum orow = 1

/-- The hypotheses carried by each position entering Phase D: nonnegative
weights, transition targets present among emission contexts, and the first
dead-state sweep done. -/
def GoodPos (x : PMatrix × PMatrix) : Prop :=
  MatNonneg x.1 ∧ MatNonneg x.2 ∧ TargetsSub x.1 x.2 ∧ Step1Prop x.1 x.2

/-- What Phase D guarantees about the `alphas[i]` map: nonnegative values,
and a nonzero alpha for every hidden key whose (pre-renormalization) row has
nonzero sum. -/
def AlphaSpec (hp : PMatrix) (alphas : Row) : Prop :=
  (∀ e ∈ alphas, 0 ≤ e.2) ∧
  ∀ k row, alookup k hp = some row → rowSum row ≠ 0 →
    ∃ a, alookup k alphas = some a ∧ a ≠ 0

/-- What Phase D guarantees about one position: both output matrices are
normalized-or-zero, nonzero transitions lead to unit-sum emission rows, and
zero entries of the inputs stay zero. -/
def PostPos (x y : PMatrix × PMatrix) : Prop :=
  NormedMat y.1 ∧ NormedMat y.2 ∧ EmitLink y.1 y.2 ∧
    ZeroPresMat x.1 y.1 ∧ ZeroPresMat x.2 y.2

/-- Everything training guarantees at one position of the constrained model,
relative to that position's (hidden, observed) constraint pair and to the
base model's emission matrix `bo`: normalization, the emit link, constraint
satisfaction of surviving weights, and no invented emission contexts. -/
@[reducible] def TrainedPosOK (oracle : String → String → Bool) (bo : PMatrix)
    (c : Constraint × Constraint) (y : PMatrix × PMatrix) : Prop :=
  NormedMat y.1 ∧ NormedMat y.2 ∧ EmitLink y.1 y.2 ∧
    SatInv oracle c.1 y.1 ∧ SatInv oracle c.2 y.2 ∧
    ∀ k, (alookup k y.2).isSome → (alookup k bo).isSome

/-- The properties of a base model guaranteed by `HiddenMarkov::train` on a
well-formed corpus: nonnegative weights and an emission row for every
transition target. -/
@[reducible] def WFBase (base : HiddenMarkov) : Prop :=
  MatNonneg base.hidden_probs ∧ MatNonneg base.observed_probs ∧
    TargetsSub base.hidden_probs base.observed_probs

/-- The spec-side description of a fully-resolvable probability query: every
position's transition and emission entry is present, and the result is the
product of those entries. -/
inductive SeqTrace : List String → List PMatrix → List PMatrix → String →
    Prob → Prop where
  | nil (hps ops : List PMatrix) (cur : String) : SeqTrace [] hps ops cur 1
  | cons (t : String) (ts : List String) (hp : PMatrix) (hps : List PMatrix)
      (op : PMatrix) (ops : List PMatrix) (cur obs hid : String) (row : Row)
      (z : Prob) (orow : Row) (e : Prob) (p : Prob)
      (hsp : splitToken t = some (obs, hid))
      (hrow : alookup cur hp = some row)
      (hz : alookup hid row = some z)
      (horow : alookup hid op = some orow)
      (he : alookup obs orow = some e)
      (htail : SeqTrace ts hps ops hid p) :
      SeqTrace (t :: ts) (hp :: hps) (op :: ops) cur (z * e * p)


/-! ## Concrete artifacts

The four-line corpus of the repository's test suite and of the spec's
concrete scenario, together with the models built from it, and the
degenerate corpus used for counterexamples. -/

/-- A phonetic oracle; the concrete scenarios use no rhyme constraint, so any
oracle gives the same results. -/
def noOracle : String → String → Bool := fun _ _ => false

def corpus4 : String :=
  "Ted:NNP now:RB likes:VBZ green:NN\nMary:NNP likes:VBZ red:NN\nMary:NNP now:RB loves:VBZ red:NN\nFred:NNP sees:VBZ Mary:NNP sometimes:RB"

def base4 : HiddenMarkov := (HiddenMarkov.new 1 corpus4).getD ⟨1, [], []⟩

/-- The observed constraints of the spec's concrete scenario:
`[AnyOf(StartsWith('t'), StartsWith('f')), Empty, Empty, Matches("red")]`. -/
def obsCons4 : List Constraint :=
  [.multi [StartsWithLetterConstraint.new 't', StartsWithLetterConstraint.new 'f'] false,
   .empty, .empty, MatchesConstraint.new "red"]

def cm4 : ConstrainedHiddenMarkov :=
  (ConstrainedHiddenMarkov.new base4 4 none (some obsCons4)).getD
    ⟨base4, 0, [], [], [], []⟩

def cm4t : ConstrainedHiddenMarkov := (cm4.train noOracle).getD cm4

/-- The all-`Empty`-constraints model over the same corpus (for the no-op
round-trip scenario). -/
def cmE : ConstrainedHiddenMarkov :=
  (ConstrainedHiddenMarkov.new base4 4 none none).getD ⟨base4, 0, [], [], [], []⟩

def cmEt : ConstrainedHiddenMarkov := (cmE.train noOracle).getD cmE

/-- A corpus whose hidden labels are all the empty string (each token is
`surface:` with nothing after the separator, which `split_token` accepts). -/
def corpusE : String := "a: b: c: d:"

def baseE : HiddenMarkov := (HiddenMarkov.new 1 corpusE).getD ⟨1, [], []⟩

/-- Over `corpusE`: an unsatisfiable hidden constraint at position 0. -/
def cmX : ConstrainedHiddenMarkov :=
  (ConstrainedHiddenMarkov.new baseE 4
      (some [MatchesConstraint.new "X", .empty, .empty, .empty]) none).getD
    ⟨baseE, 0, [], [], [], []⟩

def cmXt : ConstrainedHiddenMarkov := (cmX.train noOracle).getD cmX

/-- A two-token corpus whose single hidden label `X` occurs both as a context
and as a target (no sink-only label). -/
def corpus2 : String := "a:X b:X"

def base2 : HiddenMarkov := (HiddenMarkov.new 1 corpus2).getD ⟨1, [], []⟩

def cm2 : ConstrainedHiddenMarkov :=
  (ConstrainedHiddenMarkov.new base2 2 (some (List.replicate 2 .empty))
      (some (List.replicate 2 .empty))).getD ⟨base2, 0, [], [], [], []⟩

/-- Every row of the matrix sums to exactly one (the state of the matrices of
a base model in which no context's row was pruned away). -/
@[reducible] def AllOneMat (d : PMatrix) : Prop := ∀ e ∈ d, rowSum e.2 = 1

/-- Every inner (target) key of the matrix is also one of its outer keys. -/
@[reducible] def SelfClosed (d : PMatrix) : Prop :=
  ∀ e ∈ d, ∀ q ∈ e.2, (alookup q.1 d).isSome

def cm2t : ConstrainedHiddenMarkov := (cm2.train noOracle).getD cm2

/-- The masked hidden matrices of the concrete scenario (Phase B of
`train`). -/
def maskedH4 : List PMatrix :=
  List.zipWith (fun c d => maskMat noOracle c d) cm4.hidden_constraints
    (List.replicate 4 base4.hidden_probs)

/-- The masked observed matrices of the concrete scenario (Phase B of
`train`). -/
def maskedO4 : List PMatrix :=
  List.zipWith (fun c d => maskMat noOracle c d) cm4.observed_constraints
    (List.replicate 4 base4.observed_probs)

/-- The last position's hidden matrix entering `renormalize` in the concrete
scenario (after Phase C, `remove_dead_states`). -/
def lastH4 : PMatrix := (remove_dead_states maskedH4 maskedO4).getD 3 []

/-- The last position's observed matrix entering `renormalize` in the
concrete scenario. -/
def lastO4 : PMatrix := maskedO4.getD 3 []

/-- The result of the last (`i == L-1`) `renormalize` iteration in the
concrete scenario: the renormalized pair and the `alphas[L-1]` map. -/
def r4 : List (PMatrix × PMatrix) × Row :=
  (renormAux [(lastH4, lastO4)]).getD ([], [])

/-! ## Claim theorems: constraints and construction -/

/-- Claim C8: `StartsWithLetter(letter).isSatisfiedBy(candidate)` is true iff
the candidate is non-empty and its first character equals the constraint's
letter under case-insensitive (ASCII-lowercase) comparison; in particular it
is false on the empty string. -/
theorem starts_with_letter_spec (oracle : String → String → Bool)
    (letter : Char) (s : String) :
    (isSat oracle (.startsWithLetter letter) s = true ↔
      s ≠ "" ∧ ∃ first rest, s.toList = first :: rest ∧
        asciiLower first = asciiLower letter) ∧
    isSat oracle (.startsWithLetter letter) "" = false := by
  constructor
  · obtain ⟨data⟩ := s
    cases data with
    | nil =>
      simp only [isSat, String.toList]
      constructor
      · intro h
        exact absurd h (by simp)
      · rintro ⟨hne, first, rest, hl, _⟩
        exact absurd hl (by simp)
    | cons c cs =>
      simp only [isSat, String.toList, List.head?, beq_iff_eq]
      constructor
      · intro h
        refine ⟨?_, c, cs, rfl, h⟩
        intro hcon
        have : (String.mk (c :: cs)).data = ("" : String).data := by rw [hcon]
        simp at this
      · rintro ⟨-, first, rest, hl, hfl⟩
        obtain ⟨rfl, -⟩ := List.cons.injEq .. ▸ hl
        exact hfl
  · rfl

/-- Characterization of construction failure in terms of the (defaulted)
constraint lists. -/
theorem new_eq_none_char (hmm : HiddenMarkov) (L : ℕ)
    (hcs ocs : Option (List Constraint)) :
    ConstrainedHiddenMarkov.new hmm L hcs ocs = none ↔
      L ≤ 1 ∨ ¬(L = (hcs.getD (List.replicate L .empty)).length ∧
        L = (ocs.getD (List.replicate L .empty)).length) := by
  unfold ConstrainedHiddenMarkov.new
  split_ifs with h1 h2
  · exact iff_of_true rfl (Or.inl h1)
  · exact iff_of_false (by simp) (fun hh => hh.elim h1 (fun hn => hn h2))
  · exact iff_of_true rfl (Or.inr h2)

/-- On construction success the returned model carries consistent lengths. -/
theorem new_some_fields (hmm : HiddenMarkov) (L : ℕ)
    (hcs ocs : Option (List Constraint)) :
    ∀ m, ConstrainedHiddenMarkov.new hmm L hcs ocs = some m →
      m.sequence_length = L ∧ m.hidden_constraints.length = L ∧
        m.observed_constraints.length = L ∧ 1 < L := by
  intro m hm
  unfold ConstrainedHiddenMarkov.new at hm
  by_cases hL : L ≤ 1
  · rw [if_pos hL] at hm
    exact absurd hm (by simp)
  · rw [if_neg hL] at hm
    split_ifs at hm with hc
    cases hm
    exact ⟨rfl, hc.1.symm, hc.2.symm, Nat.lt_of_not_le hL⟩

/-- Claim C7: constructing a `ConstrainedHiddenMarkov` fails at build time
(`none`, an assertion failure in the source) exactly when the sequence
length is ≤ 1 or a provided constraint list's length differs from it; on
success the returned model carries consistent lengths, so the violation is
neither deferred nor coerced. -/
theorem new_length_check (hmm : HiddenMarkov) (L : ℕ)
    (hcs ocs : Option (List Constraint)) :
    (ConstrainedHiddenMarkov.new hmm L hcs ocs = none ↔
      L ≤ 1 ∨ (∃ h, hcs = some h ∧ h.length ≠ L) ∨
        (∃ o, ocs = some o ∧ o.length ≠ L)) ∧
    ∀ m, ConstrainedHiddenMarkov.new hmm L hcs ocs = some m →
      m.sequence_length = L ∧ m.hidden_constraints.length = L ∧
        m.observed_constraints.length = L ∧ 1 < L := by
  constructor
  · rw [new_eq_none_char]
    rcases hcs with _ | h <;> rcases ocs with _ | o <;>
      simp only [Option.getD_none, Option.getD_some, List.length_replicate,
        Option.some.injEq, reduceCtorEq, false_and, exists_false, or_false,
        false_or, exists_eq_left', true_and, and_true, not_true] <;>
      omega
  · exact new_some_fields hmm L hcs ocs

/-- Witness for C7 at the concrete scenario model. -/
theorem new_length_check_witness :
    ConstrainedHiddenMarkov.new base4 4 none (some obsCons4) = some cm4 ∧
    (cm4.sequence_length = 4 ∧ cm4.hidden_constraints.length = 4 ∧
      cm4.observed_constraints.length = 4 ∧ 1 < 4) :=
  ⟨by rfl, (new_length_check base4 4 none (some obsCons4)).2 cm4 (by rfl)⟩

/-- Claim C9: a `SPEC*N` line appends the constraint parsed from `SPEC`
exactly `N` times to the hidden list and exactly `N` times to the observed
list, whatever was accumulated before. -/
theorem multi_constraint_replication (line a b : String) (rest : List String)
    (hidden observed : List Constraint) (c : Constraint) (n : Int)
    (hstar : line.toList.contains '*' = true)
    (hsplit : splitOnChar '*' line = a :: b :: rest)
    (hc : str_to_constraint a = some c)
    (hn : parseI32 b = some n) :
    parse_constraint_lines [line] hidden observed =
      some (hidden ++ List.replicate n.toNat c,
            observed ++ List.replicate n.toNat c) := by
  have hne : line ≠ "" := by
    rintro rfl
    exact absurd hstar (by decide)
  unfold parse_constraint_lines
  rw [if_neg hne, if_pos hstar]
  simp only [add_multi_constraint, hsplit, hc, hn]
  rfl

/-- Witness for C9 on the line `SW(t)*3` with nonempty accumulated lists. -/
theorem multi_constraint_replication_witness :
    ("SW(t)*3".toList.contains '*' = true) ∧
    splitOnChar '*' "SW(t)*3" = ["SW(t)", "3"] ∧
    str_to_constraint "SW(t)" = some (.startsWithLetter 't') ∧
    parseI32 "3" = some 3 ∧
    parse_constraint_lines ["SW(t)*3"] [.empty] [.empty] =
      some ([.empty] ++ List.replicate (3 : Int).toNat (.startsWithLetter 't'),
            [.empty] ++ List.replicate (3 : Int).toNat (.startsWithLetter 't')) :=
  ⟨by decide, by decide, by rfl, by rfl,
    multi_constraint_replication "SW(t)*3" "SW(t)" "3" [] [.empty] [.empty]
      (.startsWithLetter 't') 3 (by decide) (by decide) (by rfl) (by rfl)⟩

/-! ## Claim theorems: sequence probability -/

/-- Claim C5 (amended): the positional sequence-probability query returns a
value exactly when every required per-position entry is present, in which
case the value is the product of the per-position transition and emission
probabilities; a missing entry is an indexing panic (`none`), not a typed
error value and not an implicit zero. -/
theorem sequence_probability_trace (ts : List String) (hps ops : List PMatrix)
    (cur : String) (p : Prob) :
    seqProbAux ts hps ops cur = some p ↔ SeqTrace ts hps ops cur p := by
  constructor
  · induction ts generalizing hps ops cur p with
    | nil =>
      intro h
      unfold seqProbAux at h
      cases h
      exact SeqTrace.nil hps ops cur
    | cons t ts ih =>
      intro h
      unfold seqProbAux at h
      cases hsp : splitToken t with
      | none =>
        simp only [hsp] at h
        exact absurd h (by simp)
      | some oh =>
        simp only [hsp] at h
        cases hps with
        | nil => exact absurd h (by simp)
        | cons hp hps2 =>
          cases ops with
          | nil => exact absurd h (by simp)
          | cons op ops2 =>
            simp only [] at h
            cases hrow : alookup cur hp with
            | none =>
              simp only [hrow] at h
              exact absurd h (by simp)
            | some row =>
              simp only [hrow] at h
              cases hz : alookup oh.2 row with
              | none =>
              simp only [hz] at h
              exact absurd h (by simp)
              | some z =>
                simp only [hz] at h
                cases horow : alookup oh.2 op with
                | none =>
              simp only [horow] at h
              exact absurd h (by simp)
                | some orow =>
                  simp only [horow] at h
                  cases he : alookup oh.1 orow with
                  | none =>
              simp only [he] at h
              exact absurd h (by simp)
                  | some e =>
                    simp only [he] at h
                    cases hrec : seqProbAux ts hps2 ops2 oh.2 with
                    | none =>
                      simp only [hrec, Option.map_none'] at h
                      exact absurd h (by simp)
                    | some p0 =>
                      rw [hrec] at h
                      simp only [Option.map_some', Option.some.injEq] at h
                      subst h
                      exact SeqTrace.cons t ts hp hps2 op ops2 cur oh.1 oh.2
                        row z orow e p0 (by rw [hsp]) hrow hz horow he (ih hps2 ops2 oh.2 p0 hrec)
  · intro h
    induction h with
    | nil hps ops cur => rfl
    | cons t ts hp hps op ops cur obs hid row z orow e p hsp hrow hz horow he htail ih =>
      unfold seqProbAux
      simp only [hsp, hrow, hz, horow, he, ih]
      rfl

unseal Rat.add Rat.mul Rat.inv in
/-- Counterexample for C5 as frozen: at the trained concrete-scenario model,
a query whose surface form `Bob` is absent from the position-0 emission row
panics (`none` models the `HashMap` indexing panic); no `LookupError` value
is returned to the caller. -/
theorem sequence_probability_panics_on_missing_key :
    get_sequence_probability cm4t "Bob:NNP now:RB likes:VBZ red:NN" = none := by
  rfl

/-! ## Claim theorems: the concrete scenario -/

unseal Rat.add Rat.mul Rat.inv in
/-- Claim C4: on the four-line corpus with order 1, length 4, observed
constraints `[AnyOf(SW t, SW f), Empty, Empty, Matches "red"]` and all-Empty
hidden constraints, training succeeds and produces
`hiddenProbs[0]["VBZ"]["NNP"] = 1`, `observedProbs[1]["NNP"]["Mary"] = 3/5`,
`observedProbs[3]["NN"]["red"] = 1`, and the probability of
`"Ted:NNP now:RB likes:VBZ red:NN"` is `1/6`. -/
theorem concrete_scenario_values :
    HiddenMarkov.new 1 corpus4 = some base4 ∧
    ConstrainedHiddenMarkov.new base4 4 none (some obsCons4) = some cm4 ∧
    cm4.train noOracle = some cm4t ∧
    (alookup "VBZ" (cm4t.hidden_probs.getD 0 [])).bind (alookup "NNP") = some 1 ∧
    (alookup "NNP" (cm4t.observed_probs.getD 1 [])).bind (alookup "Mary") =
      some (3 / 5) ∧
    (alookup "NN" (cm4t.observed_probs.getD 3 [])).bind (alookup "red") = some 1 ∧
    get_sequence_probability cm4t "Ted:NNP now:RB likes:VBZ red:NN" =
      some (1 / 6) :=
  ⟨by rfl, by rfl, by rfl, by rfl, by rfl, by rfl, by rfl⟩

/-! ## Claim theorems: idempotence of training -/

/-- Claim C10: `train` clears the positional matrices and rebuilds them from
the immutable base model and constraint lists only, so training an
already-trained model reproduces it exactly. -/
theorem train_idempotent (oracle : String → String → Bool)
    (m m2 : ConstrainedHiddenMarkov) (h : m.train oracle = some m2) :
    m2.train oracle = some m2 := by
  unfold ConstrainedHiddenMarkov.train at h ⊢
  cases hr : renormAux
      ((remove_dead_states
          (List.zipWith (fun c d => maskMat oracle c d) m.hidden_constraints
            (List.replicate m.sequence_length m.hidden_markov_model.hidden_probs))
          (List.zipWith (fun c d => maskMat oracle c d) m.observed_constraints
            (List.replicate m.sequence_length m.hidden_markov_model.observed_probs))).zip
        (List.zipWith (fun c d => maskMat oracle c d) m.observed_constraints
          (List.replicate m.sequence_length m.hidden_markov_model.observed_probs))) with
  | none => rw [hr] at h; exact absurd h (by simp)
  | some r =>
    rw [hr] at h
    simp only [Option.map_some', Option.some.injEq] at h
    subst h
    simp only []
    rw [hr]
    rfl

unseal Rat.add Rat.mul Rat.inv in
/-- Witness for C10 at the trained concrete-scenario model. -/
theorem train_idempotent_witness :
    cm4.train noOracle = some cm4t ∧ cm4t.train noOracle = some cm4t :=
  ⟨by rfl, train_idempotent noOracle cm4 cm4t (by rfl)⟩

/-! ## General lemmas: association lists, sums, zeroing -/

theorem alookup_map (f : String → α → β) (d : List (String × α)) (k : String) :
    alookup k (d.map (fun e => (e.1, f e.1 e.2))) = (alookup k d).map (f k) := by
  induction d with
  | nil => rfl
  | cons e es ih =>
    by_cases h : e.1 = k
    · simp [alookup, h]
    · simp [alookup, h, ih]

theorem alookup_mem {d : List (String × α)} {k : String} {v : α}
    (h : alookup k d = some v) : (k, v) ∈ d := by
  induction d with
  | nil => simp [alookup] at h
  | cons e es ih =>
    by_cases he : e.1 = k
    · simp only [alookup, he, if_pos, Option.some.injEq] at h
      subst h
      rw [← he]
      exact List.mem_cons_self e es
    · simp only [alookup, he, if_false] at h
      exact List.mem_cons_of_mem _ (ih h)

theorem deadKeys_mem {d : PMatrix} {k : String} :
    k ∈ deadKeys d ↔ ∃ r, (k, r) ∈ d ∧ rowSum r = 0 := by
  unfold deadKeys
  constructor
  · intro h
    obtain ⟨e, he, rfl⟩ := List.mem_map.mp h
    obtain ⟨hmem, hsum⟩ := List.mem_filter.mp he
    exact ⟨e.2, by simpa using hmem, by simpa using hsum⟩
  · rintro ⟨r, hmem, hsum⟩
    exact List.mem_map.mpr ⟨(k, r), List.mem_filter.mpr ⟨hmem, by simpa using hsum⟩, rfl⟩

theorem rowSum_ne_zero_of_not_dead {d : PMatrix} {k : String} {r : Row}
    (h : alookup k d = some r) (hnd : k ∉ deadKeys d) : rowSum r ≠ 0 :=
  fun h0 => hnd (deadKeys_mem.mpr ⟨r, alookup_mem h, h0⟩)

theorem sum_map_div (l : List Prob) (a : Prob) :
    (l.map (fun x => x / a)).sum = l.sum / a := by
  induction l with
  | nil => simp
  | cons x xs ih => simp [ih, add_div]

theorem rowSum_all_zero {r : Row} (h : ∀ q ∈ r, q.2 = 0) : rowSum r = 0 := by
  unfold rowSum
  rw [List.sum_eq_zero]
  intro x hx
  obtain ⟨q, hq, rfl⟩ := List.mem_map.mp hx
  exact h q hq

theorem rowSum_nonneg {r : Row} (h : RowNonneg r) : 0 ≤ rowSum r := by
  apply List.sum_nonneg
  intro x hx
  obtain ⟨q, hq, rfl⟩ := List.mem_map.mp hx
  exact h q hq

theorem exists_nonzero_of_rowSum_ne {r : Row} (h : rowSum r ≠ 0) :
    ∃ q ∈ r, q.2 ≠ 0 := by
  by_contra hc
  push_neg at hc
  exact h (rowSum_all_zero hc)

theorem all_zero_of_rowSum_zero {r : Row} (hnn : RowNonneg r)
    (h : rowSum r = 0) : ∀ q ∈ r, q.2 = 0 := by
  intro q hq
  exact List.all_zero_of_le_zero_le_of_sum_eq_zero
    (fun x hx => by
      obtain ⟨q2, hq2, rfl⟩ := List.mem_map.mp hx
      exact hnn q2 hq2)
    h (List.mem_map_of_mem _ hq)

theorem sum_pos_of_mem_pos {l : List Prob} (hl : ∀ x ∈ l, 0 ≤ x) {x : Prob}
    (hx : x ∈ l) (hpos : 0 < x) : 0 < l.sum :=
  lt_of_lt_of_le hpos (List.single_le_sum hl x hx)

theorem zeroRowIf_entry {p : String → Bool} {row : Row} {q2 : String × Prob}
    (h : q2 ∈ zeroRowIf p row) :
    ∃ q ∈ row, q2.1 = q.1 ∧ (q2 = q ∧ p q.1 = false ∨ q2.2 = 0) := by
  obtain ⟨q, hq, hq2⟩ := List.mem_map.mp h
  cases hp : p q.1 with
  | false =>
    refine ⟨q, hq, ?_, Or.inl ⟨?_, hp⟩⟩
    · rw [← hq2]
      simp [hp]
    · rw [← hq2]
      simp [hp]
  | true =>
    refine ⟨q, hq, ?_, Or.inr ?_⟩
    · rw [← hq2]
      simp [hp]
    · rw [← hq2]
      simp [hp]

theorem zeroRowIf_nonzero {p : String → Bool} {row : Row} {q2 : String × Prob}
    (h : q2 ∈ zeroRowIf p row) (hne : q2.2 ≠ 0) :
    q2 ∈ row ∧ p q2.1 = false := by
  obtain ⟨q, hq, hk, hcase⟩ := zeroRowIf_entry h
  rcases hcase with ⟨rfl, hp⟩ | h0
  · exact ⟨hq, hp⟩
  · exact absurd h0 hne

theorem zeroRowIf_keys (p : String → Bool) (row : Row) :
    (zeroRowIf p row).map (fun q => q.1) = row.map (fun q => q.1) := by
  unfold zeroRowIf
  rw [List.map_map]
  apply List.map_congr_left
  intro q hq
  cases hp : p q.1 <;> simp [hp]

theorem RowNonneg_zeroRowIf {p : String → Bool} {row : Row}
    (h : RowNonneg row) : RowNonneg (zeroRowIf p row) := by
  intro q2 hq2
  obtain ⟨q, hq, hk, hcase⟩ := zeroRowIf_entry hq2
  rcases hcase with ⟨heq, _⟩ | h0
  · rw [heq]
    exact h q hq
  · rw [h0]

theorem alookup_zeroMatIf (p : String → Bool) (d : PMatrix) (k : String) :
    alookup k (zeroMatIf p d) = (alookup k d).map (zeroRowIf p) :=
  alookup_map (fun _ r => zeroRowIf p r) d k

theorem MatNonneg_zeroMatIf {p : String → Bool} {d : PMatrix}
    (h : MatNonneg d) : MatNonneg (zeroMatIf p d) := by
  intro e2 he2
  obtain ⟨e, he, rfl⟩ := List.mem_map.mp he2
  exact RowNonneg_zeroRowIf (h e he)

theorem zeroMatIf_entry {p : String → Bool} {d : PMatrix} {e2 : String × Row}
    (h : e2 ∈ zeroMatIf p d) : ∃ r, (e2.1, r) ∈ d ∧ e2.2 = zeroRowIf p r := by
  obtain ⟨e, he, rfl⟩ := List.mem_map.mp h
  exact ⟨e.2, by simpa using he, rfl⟩

/-! ## General lemmas: zero preservation -/

theorem forall2_mem_right {R : α → β → Prop} {l1 : List α} {l2 : List β}
    (h : List.Forall₂ R l1 l2) {b : β} (hb : b ∈ l2) : ∃ a ∈ l1, R a b := by
  induction h with
  | nil => simp at hb
  | cons hr _ ih =>
    rcases List.mem_cons.mp hb with rfl | hb2
    · exact ⟨_, List.mem_cons_self .., hr⟩
    · obtain ⟨a, ha, har⟩ := ih hb2
      exact ⟨a, List.mem_cons_of_mem _ ha, har⟩

theorem zeroPresRow_refl (r : Row) : ZeroPresRow r r :=
  List.forall₂_same.mpr (fun q _ => ⟨rfl, id⟩)

theorem zeroPresRow_map (r : Row) (g : String × Prob → Prob)
    (hg : ∀ q ∈ r, g q ≠ 0 → q.2 ≠ 0) :
    ZeroPresRow r (r.map (fun q => (q.1, g q))) := by
  induction r with
  | nil => exact List.Forall₂.nil
  | cons q qs ih =>
    exact List.Forall₂.cons ⟨rfl, hg q (List.mem_cons_self ..)⟩
      (ih (fun q2 hq2 => hg q2 (List.mem_cons_of_mem _ hq2)))

theorem zeroPresRow_trans {a b c : Row} (h1 : ZeroPresRow a b)
    (h2 : ZeroPresRow b c) : ZeroPresRow a c := by
  induction h1 generalizing c with
  | nil => cases h2; exact List.Forall₂.nil
  | cons hr _ ih =>
    cases h2 with
    | cons hr2 htail2 =>
      exact List.Forall₂.cons ⟨hr.1.trans hr2.1, fun hne => hr.2 (hr2.2 hne)⟩
        (ih htail2)

theorem zeroPresMat_refl (d : PMatrix) : ZeroPresMat d d :=
  List.forall₂_same.mpr (fun e _ => ⟨rfl, zeroPresRow_refl e.2⟩)

theorem zeroPresMat_trans {a b c : PMatrix} (h1 : ZeroPresMat a b)
    (h2 : ZeroPresMat b c) : ZeroPresMat a c := by
  induction h1 generalizing c with
  | nil => cases h2; exact List.Forall₂.nil
  | cons hr _ ih =>
    cases h2 with
    | cons hr2 htail2 =>
      exact List.Forall₂.cons ⟨hr.1.trans hr2.1, zeroPresRow_trans hr.2 hr2.2⟩
        (ih htail2)

theorem zeroPresMat_map (d : PMatrix) (f : String → Row → Row)
    (hf : ∀ e ∈ d, ZeroPresRow e.2 (f e.1 e.2)) :
    ZeroPresMat d (d.map (fun e => (e.1, f e.1 e.2))) := by
  induction d with
  | nil => exact List.Forall₂.nil
  | cons e es ih =>
    exact List.Forall₂.cons ⟨rfl, hf e (List.mem_cons_self ..)⟩
      (ih (fun e2 he2 => hf e2 (List.mem_cons_of_mem _ he2)))

theorem zeroPresRow_zeroRowIf (p : String → Bool) (r : Row) :
    ZeroPresRow r (zeroRowIf p r) := by
  unfold zeroRowIf
  induction r with
  | nil => exact List.Forall₂.nil
  | cons q qs ih =>
    refine List.Forall₂.cons ?_ ih
    cases hp : p q.1 <;> simp [hp]

theorem zeroPresMat_zeroMatIf (p : String → Bool) (d : PMatrix) :
    ZeroPresMat d (zeroMatIf p d) :=
  zeroPresMat_map d (fun _ r => zeroRowIf p r)
    (fun e _ => zeroPresRow_zeroRowIf p e.2)

theorem satInv_of_zeroPres {oracle : String → String → Bool} {c : Constraint}
    {pre post : PMatrix} (hz : ZeroPresMat pre post)
    (hs : SatInv oracle c pre) : SatInv oracle c post := by
  intro e2 he2 q2 hq2 hne
  obtain ⟨e, he, hrel⟩ := forall2_mem_right hz he2
  obtain ⟨q, hq, hqrel⟩ := forall2_mem_right hrel.2 hq2
  rw [← hqrel.1]
  exact hs e he q hq (hqrel.2 hne)

/-! ## Characterization of `renormalize` as a pure closed form -/

theorem zipBetas_some {betas : Row} {row : Row}
    (h : ∀ q ∈ row, (alookup q.1 betas).isSome) :
    zipBetas betas row =
      some (row.map (fun q => (q.1, (alookup q.1 betas).getD 0, q.2))) := by
  induction row with
  | nil => rfl
  | cons q qs ih =>
    obtain ⟨b, hb⟩ := Option.isSome_iff_exists.mp (h q (List.mem_cons_self ..))
    unfold zipBetas
    rw [hb, ih (fun q2 hq2 => h q2 (List.mem_cons_of_mem _ hq2))]
    simp [hb]

theorem renormRow_char {betas : Row} (alphaNext : Option Row) {row : Row}
    (h : ∀ q ∈ row, (alookup q.1 betas).isSome) :
    renormRow betas alphaNext row =
      some (rowRenorm betas alphaNext row, rowAlpha betas alphaNext row) := by
  cases alphaNext with
  | none =>
    unfold renormRow rowRenorm rowAlpha facFor
    rw [zipBetas_some h]
    simp only [Option.map_some', Option.some.injEq, List.map_map, Function.comp_def]
    split_ifs <;> rfl
  | some an =>
    unfold renormRow rowRenorm rowAlpha facFor
    rw [zipBetas_some h]
    simp only [Option.map_some', Option.some.injEq, List.map_map, Function.comp_def]
    split_ifs <;> rfl

theorem renormMat_char {betas : Row} (alphaNext : Option Row) {hp : PMatrix}
    (h : ∀ e ∈ hp, ∀ q ∈ e.2, (alookup q.1 betas).isSome) :
    renormMat betas alphaNext hp =
      some (hp.map (fun e => (e.1, rowRenorm betas alphaNext e.2)),
            hp.map (fun e => (e.1, rowAlpha betas alphaNext e.2))) := by
  induction hp with
  | nil => rfl
  | cons e es ih =>
    unfold renormMat
    rw [renormRow_char alphaNext (h e (List.mem_cons_self ..)),
      ih (fun e2 he2 => h e2 (List.mem_cons_of_mem _ he2))]
    rfl

theorem betas_isSome {op : PMatrix} {k : String} (h : (alookup k op).isSome) :
    (alookup k (op.map (fun o => (o.1, rowSum o.2)))).isSome := by
  obtain ⟨v, hv⟩ := Option.isSome_iff_exists.mp h
  rw [alookup_map (fun _ r => rowSum r) op k, hv]
  rfl

theorem renormAux_eq_spec : ∀ ps : List (PMatrix × PMatrix),
    (∀ x ∈ ps, TargetsSub x.1 x.2) → renormAux ps = some (renormSpec ps)
  | [], _ => rfl
  | [x], h => by
    unfold renormAux renormSpec
    have hts := h x (List.mem_cons_self ..)
    rw [show (renormObs x.2).2 = x.2.map (fun o => (o.1, rowSum o.2)) from rfl]
    rw [renormMat_char none
      (fun e he q hq => betas_isSome (hts e he q hq))]
    rfl
  | x :: y :: t, h => by
    unfold renormAux renormSpec
    rw [renormAux_eq_spec (y :: t)
      (fun z hz => h z (List.mem_cons_of_mem _ hz))]
    dsimp only
    have hts := h x (List.mem_cons_self ..)
    rw [show (renormObs x.2).2 = x.2.map (fun o => (o.1, rowSum o.2)) from rfl]
    rw [renormMat_char (some (renormSpec (y :: t)).2)
      (fun e he q hq => betas_isSome (hts e he q hq))]
    rfl


/-! ## Row-level and position-level facts for Phase D -/

/-! ## Row-level facts for Phase D -/

theorem rowSum_map_snd (row : Row) (f : String × Prob → Prob) :
    rowSum (row.map (fun q => (q.1, f q))) = (row.map f).sum := by
  unfold rowSum
  rw [List.map_map]
  congr 1

theorem rowNormalize_sum {r : Row} (h : rowSum r ≠ 0) :
    rowSum (rowNormalize r) = 1 := by
  unfold rowNormalize
  rw [if_neg h, rowSum_map_snd]
  rw [show (r.map fun q => q.2 / rowSum r) =
      ((r.map fun q => q.2).map fun x => x / rowSum r) by
    rw [List.map_map]
    simp [Function.comp_def]]
  rw [sum_map_div]
  exact div_self h

theorem zeroPresRow_rowNormalize (r : Row) : ZeroPresRow r (rowNormalize r) := by
  unfold rowNormalize
  split_ifs
  · exact zeroPresRow_refl r
  · refine zeroPresRow_map r _ (fun q _ hne h0 => hne ?_)
    rw [h0]
    exact zero_div _

theorem alookup_betas (op : PMatrix) (k : String) :
    alookup k (op.map (fun o => (o.1, rowSum o.2))) =
      (alookup k op).map rowSum :=
  alookup_map (fun _ r => rowSum r) op k

theorem betas_getD_ne {op : PMatrix} {k : String}
    (h : (alookup k (op.map (fun o => (o.1, rowSum o.2)))).getD 0 ≠ 0) :
    ∃ orow, alookup k op = some orow ∧ rowSum orow ≠ 0 := by
  rw [alookup_betas] at h
  cases hx : alookup k op with
  | none => rw [hx] at h; exact absurd rfl h
  | some r =>
    rw [hx] at h
    exact ⟨r, rfl, h⟩

theorem facFor_getD_ne {betas : Row} {alphaNext : Option Row} {k : String}
    (h : facFor betas alphaNext k ≠ 0) : (alookup k betas).getD 0 ≠ 0 := by
  cases alphaNext with
  | none => exact h
  | some an => exact (mul_ne_zero_iff.mp h).1

theorem facFor_ne_of {op : PMatrix} {alphaNext : Option Row} {k : String}
    (hb : ∃ orow, alookup k op = some orow ∧ rowSum orow ≠ 0)
    (han : ∀ an, alphaNext = some an → (alookup k an).getD 0 ≠ 0) :
    facFor (op.map (fun o => (o.1, rowSum o.2))) alphaNext k ≠ 0 := by
  obtain ⟨orow, ho, hs⟩ := hb
  cases alphaNext with
  | none =>
    unfold facFor
    rw [alookup_betas, ho]
    exact hs
  | some an =>
    unfold facFor
    rw [alookup_betas, ho]
    exact mul_ne_zero hs (han an rfl)

theorem facFor_nonneg {op : PMatrix} {alphaNext : Option Row} {k : String}
    (hnnO : MatNonneg op)
    (hanNN : ∀ an, alphaNext = some an → ∀ e ∈ an, 0 ≤ e.2) :
    0 ≤ facFor (op.map (fun o => (o.1, rowSum o.2))) alphaNext k := by
  have hbeta : 0 ≤ (alookup k (op.map (fun o => (o.1, rowSum o.2)))).getD 0 := by
    rw [alookup_betas]
    cases hx : alookup k op with
    | none => exact le_refl 0
    | some r => exact rowSum_nonneg (hnnO (k, r) (alookup_mem hx))
  cases alphaNext with
  | none => exact hbeta
  | some an =>
    refine mul_nonneg hbeta ?_
    cases hx : alookup k an with
    | none => exact le_refl 0
    | some a => exact hanNN an rfl (k, a) (alookup_mem hx)

theorem rowAlpha_nonneg {betas : Row} {alphaNext : Option Row} {row : Row}
    (hnn : RowNonneg row)
    (hfacnn : ∀ k, 0 ≤ facFor betas alphaNext k) :
    0 ≤ rowAlpha betas alphaNext row := by
  apply List.sum_nonneg
  intro x hx
  obtain ⟨q, hq, rfl⟩ := List.mem_map.mp hx
  exact mul_nonneg (hfacnn q.1) (hnn q hq)

theorem row_zero_of_alpha_zero {betas : Row} {alphaNext : Option Row}
    {row : Row} (hnn : RowNonneg row)
    (hfacnn : ∀ k, 0 ≤ facFor betas alphaNext k)
    (hfacne : ∀ q ∈ row, q.2 ≠ 0 → facFor betas alphaNext q.1 ≠ 0)
    (h0 : rowAlpha betas alphaNext row = 0) : ∀ q ∈ row, q.2 = 0 := by
  intro q hq
  by_contra hqne
  have hterm : facFor betas alphaNext q.1 * q.2 = 0 :=
    List.all_zero_of_le_zero_le_of_sum_eq_zero
      (fun x hx => by
        obtain ⟨q2, hq2, rfl⟩ := List.mem_map.mp hx
        exact mul_nonneg (hfacnn q2.1) (hnn q2 hq2))
      h0 (List.mem_map_of_mem _ hq)
  rcases mul_eq_zero.mp hterm with hf | hz
  · exact hfacne q hq hqne hf
  · exact hqne hz

theorem rowRenorm_sum {betas : Row} {alphaNext : Option Row} {row : Row}
    (hne : rowAlpha betas alphaNext row ≠ 0) :
    rowSum (rowRenorm betas alphaNext row) = 1 := by
  unfold rowRenorm
  rw [if_neg hne, rowSum_map_snd]
  rw [show (row.map fun q => facFor betas alphaNext q.1 * q.2 /
        rowAlpha betas alphaNext row) =
      ((row.map fun q => facFor betas alphaNext q.1 * q.2).map fun x =>
        x / rowAlpha betas alphaNext row) by
    rw [List.map_map]
    simp [Function.comp_def]]
  rw [sum_map_div]
  exact div_self hne

theorem zeroPresRow_rowRenorm (betas : Row) (alphaNext : Option Row)
    (row : Row) : ZeroPresRow row (rowRenorm betas alphaNext row) := by
  unfold rowRenorm
  split_ifs
  · exact zeroPresRow_refl row
  · refine zeroPresRow_map row _ (fun q _ hne h0 => hne ?_)
    rw [h0, mul_zero, zero_div]

/-- Everything Phase D guarantees at one position, given nonnegative inputs
and a nonzero factor behind every surviving transition entry. -/
theorem position_invariants (hp op : PMatrix) (alphaNext : Option Row)
    (hnnH : MatNonneg hp) (hnnO : MatNonneg op)
    (hfacnn : ∀ k, 0 ≤ facFor (op.map (fun o => (o.1, rowSum o.2))) alphaNext k)
    (hfacne : ∀ e ∈ hp, ∀ q ∈ e.2, q.2 ≠ 0 →
      facFor (op.map (fun o => (o.1, rowSum o.2))) alphaNext q.1 ≠ 0) :
    PostPos (hp, op)
      (hp.map (fun e =>
        (e.1, rowRenorm (op.map (fun o => (o.1, rowSum o.2))) alphaNext e.2)),
       op.map (fun e => (e.1, rowNormalize e.2))) ∧
    AlphaSpec hp
      (hp.map (fun e =>
        (e.1, rowAlpha (op.map (fun o => (o.1, rowSum o.2))) alphaNext e.2))) := by
  constructor
  · refine ⟨?_, ?_, ?_, ?_, ?_⟩
    · -- NormedMat of the renormalized hidden matrix
      intro e2 he2
      obtain ⟨e, he, rfl⟩ := List.mem_map.mp he2
      by_cases h0 : rowAlpha (op.map (fun o => (o.1, rowSum o.2))) alphaNext e.2 = 0
      · refine Or.inr ?_
        intro q hq
        unfold rowRenorm at hq
        rw [if_pos h0] at hq
        exact row_zero_of_alpha_zero (hnnH e he) hfacnn
          (fun q2 hq2 => hfacne e he q2 hq2) h0 q hq
      · exact Or.inl (rowRenorm_sum h0)
    · -- NormedMat of the renormalized observed matrix
      intro e2 he2
      obtain ⟨e, he, rfl⟩ := List.mem_map.mp he2
      by_cases h0 : rowSum e.2 = 0
      · refine Or.inr ?_
        intro q hq
        unfold rowNormalize at hq
        rw [if_pos h0] at hq
        exact all_zero_of_rowSum_zero (hnnO e he) h0 q hq
      · exact Or.inl (rowNormalize_sum h0)
    · -- EmitLink
      intro e2 he2 q2 hq2 hne
      obtain ⟨e, he, rfl⟩ := List.mem_map.mp he2
      dsimp only at hq2
      by_cases h0 : rowAlpha (op.map (fun o => (o.1, rowSum o.2))) alphaNext e.2 = 0
      · exfalso
        unfold rowRenorm at hq2
        rw [if_pos h0] at hq2
        exact hne (row_zero_of_alpha_zero (hnnH e he) hfacnn
          (fun q3 hq3 => hfacne e he q3 hq3) h0 q2 hq2)
      · unfold rowRenorm at hq2
        rw [if_neg h0] at hq2
        obtain ⟨q, hq, hqeq⟩ := List.mem_map.mp hq2
        have hfac : facFor (op.map (fun o => (o.1, rowSum o.2))) alphaNext q.1 ≠ 0 := by
          intro hf
          apply hne
          rw [← hqeq]
          dsimp only
          rw [hf, zero_mul, zero_div]
        obtain ⟨orow, ho, hs⟩ := betas_getD_ne (facFor_getD_ne hfac)
        refine ⟨rowNormalize orow, ?_, rowNormalize_sum hs⟩
        rw [← hqeq]
        dsimp only
        rw [alookup_map (fun _ r => rowNormalize r) op q.1, ho]
        rfl
    · -- zero preservation, hidden
      exact zeroPresMat_map hp
        (fun _ r => rowRenorm (op.map (fun o => (o.1, rowSum o.2))) alphaNext r)
        (fun e _ => zeroPresRow_rowRenorm _ alphaNext e.2)
    · -- zero preservation, observed
      exact zeroPresMat_map op (fun _ r => rowNormalize r)
        (fun e _ => zeroPresRow_rowNormalize e.2)
  · constructor
    · -- alphas nonnegative
      intro e2 he2
      obtain ⟨e, he, rfl⟩ := List.mem_map.mp he2
      exact rowAlpha_nonneg (hnnH e he) hfacnn
    · -- alive keys keep a nonzero alpha
      intro k row hrow hsum
      refine ⟨rowAlpha (op.map (fun o => (o.1, rowSum o.2))) alphaNext row, ?_, ?_⟩
      · rw [alookup_map (fun _ r =>
          rowAlpha (op.map (fun o => (o.1, rowSum o.2))) alphaNext r) hp k, hrow]
        rfl
      · intro h0
        apply hsum
        apply rowSum_all_zero
        have hmem := alookup_mem hrow
        exact row_zero_of_alpha_zero (hnnH (k, row) hmem) hfacnn
          (fun q hq => hfacne (k, row) hmem q hq) h0

/-- Phase D invariants over the whole backward sweep: each output position is
normalized and emit-linked with zero preservation, and the first position's
alphas map is faithful to row liveness. -/
theorem renormSpec_invariants : ∀ ps : List (PMatrix × PMatrix),
    (∀ x ∈ ps, GoodPos x) → ChainH (ps.map (fun x => x.1)) →
    List.Forall₂ PostPos ps (renormSpec ps).1 ∧
    AlphaSpec (ps.headD ([], [])).1 (renormSpec ps).2
  | [], _, _ => by
    refine ⟨List.Forall₂.nil, fun e he => absurd he (List.not_mem_nil e), ?_⟩
    intro k row hrow hs
    simp [alookup] at hrow
  | [x], h, _ => by
    obtain ⟨hnnH, hnnO, hts, hs1⟩ := h x (List.mem_cons_self ..)
    have hfacnn : ∀ k,
        0 ≤ facFor (x.2.map (fun o => (o.1, rowSum o.2))) none k :=
      fun k => facFor_nonneg hnnO (fun an han => by cases han)
    have hfacne : ∀ e ∈ x.1, ∀ q ∈ e.2, q.2 ≠ 0 →
        facFor (x.2.map (fun o => (o.1, rowSum o.2))) none q.1 ≠ 0 :=
      fun e he q hq hne =>
        facFor_ne_of (hs1 e he q hq hne) (fun an han => by cases han)
    obtain ⟨hpost, halpha⟩ :=
      position_invariants x.1 x.2 none hnnH hnnO hfacnn hfacne
    exact ⟨List.Forall₂.cons hpost List.Forall₂.nil, halpha⟩
  | x :: y :: t, h, hchain => by
    have hrest := renormSpec_invariants (y :: t)
      (fun z hz => h z (List.mem_cons_of_mem _ hz)) hchain.2
    obtain ⟨hnnH, hnnO, hts, hs1⟩ := h x (List.mem_cons_self ..)
    have hfacnn : ∀ k, 0 ≤ facFor (x.2.map (fun o => (o.1, rowSum o.2)))
        (some (renormSpec (y :: t)).2) k :=
      fun k => facFor_nonneg hnnO (fun an2 han => by
        cases han
        exact hrest.2.1)
    have hfacne : ∀ e ∈ x.1, ∀ q ∈ e.2, q.2 ≠ 0 →
        facFor (x.2.map (fun o => (o.1, rowSum o.2)))
          (some (renormSpec (y :: t)).2) q.1 ≠ 0 := by
      intro e he q hq hne
      refine facFor_ne_of (hs1 e he q hq hne) (fun an2 han => ?_)
      cases han
      obtain ⟨nrow, hn, hnsum⟩ := hchain.1 e he q hq hne
      obtain ⟨a, ha, hane⟩ := hrest.2.2 q.1 nrow hn hnsum
      rw [ha]
      exact hane
    obtain ⟨hpost, halpha⟩ := position_invariants x.1 x.2
      (some (renormSpec (y :: t)).2) hnnH hnnO hfacnn hfacne
    exact ⟨List.Forall₂.cons hpost hrest.1, halpha⟩


/-! ## Forall₂ plumbing to track positional alignment through the pipeline -/

theorem forall2_and {R S : α → β → Prop} {as : List α} {bs : List β}
    (h1 : List.Forall₂ R as bs) (h2 : List.Forall₂ S as bs) :
    List.Forall₂ (fun a b => R a b ∧ S a b) as bs := by
  induction h1 with
  | nil => exact List.Forall₂.nil
  | cons hr _ ih =>
    cases h2 with
    | cons hs htail => exact List.Forall₂.cons ⟨hr, hs⟩ (ih htail)

theorem forall2_comp {R : α → β → Prop} {S : β → γ → Prop} {T : α → γ → Prop}
    {as : List α} {bs : List β} {cs : List γ}
    (h1 : List.Forall₂ R as bs) (h2 : List.Forall₂ S bs cs)
    (h : ∀ a b c, R a b → S b c → T a c) :
    List.Forall₂ T as cs := by
  induction h1 generalizing cs with
  | nil => cases h2; exact List.Forall₂.nil
  | cons hr _ ih =>
    cases h2 with
    | cons hs htail => exact List.Forall₂.cons (h _ _ _ hr hs) (ih htail)

theorem forall2_zipWith_replicate {g : γ → α → β} (x : α) :
    ∀ (cs : List γ) (L : ℕ), cs.length = L →
    List.Forall₂ (fun c d => d = g c x) cs
      (List.zipWith g cs (List.replicate L x))
  | [], _, _ => List.Forall₂.nil
  | c :: cs, L, h => by
    cases L with
    | zero => simp at h
    | succ L2 =>
      exact List.Forall₂.cons rfl
        (forall2_zipWith_replicate x cs L2 (by simpa using h))

theorem forall2_zip_zipWith {g : α → β → γ} :
    ∀ (as : List α) (bs : List β),
    List.Forall₂ (fun (p : α × β) c => c = g p.1 p.2) (as.zip bs)
      (List.zipWith g as bs)
  | [], _ => by simp
  | _ :: _, [] => by simp
  | a :: as, b :: bs =>
    List.Forall₂.cons rfl (forall2_zip_zipWith as bs)

theorem forall2_zip_both {R : γ → α → Prop} {S : δ → β → Prop}
    {cs : List γ} {ds : List δ} {as : List α} {bs : List β}
    (h1 : List.Forall₂ R cs as) (h2 : List.Forall₂ S ds bs) :
    List.Forall₂ (fun c p => R c.1 p.1 ∧ S c.2 p.2) (cs.zip ds) (as.zip bs) := by
  induction h1 generalizing ds bs with
  | nil => exact List.Forall₂.nil
  | cons hr _ ih =>
    cases h2 with
    | nil => exact List.Forall₂.nil
    | cons hs htail => exact List.Forall₂.cons ⟨hr, hs⟩ (ih htail)

theorem forall2_zip_left {R : α → γ → Prop} {S : β → γ → Prop}
    {as : List α} {bs : List β} {cs : List γ}
    (h1 : List.Forall₂ R as cs) (h2 : List.Forall₂ S bs cs) :
    List.Forall₂ (fun p c => R p.1 c ∧ S p.2 c) (as.zip bs) cs := by
  induction h1 generalizing bs with
  | nil => exact List.Forall₂.nil
  | cons hr _ ih =>
    cases h2 with
    | cons hs htail => exact List.Forall₂.cons ⟨hr, hs⟩ (ih htail)

/-! ## Preservation facts for the masking and dead-state stages -/

theorem satInv_maskMat (oracle : String → String → Bool) (c : Constraint)
    (d : PMatrix) : SatInv oracle c (maskMat oracle c d) := by
  intro e2 he2 q2 hq2 hne
  obtain ⟨r, hmem, hrow⟩ := zeroMatIf_entry he2
  rw [hrow] at hq2
  obtain ⟨hq2r, hp⟩ := zeroRowIf_nonzero hq2 hne
  simpa using hp

theorem step1_zeroMatIf {hp op : PMatrix} (hts : TargetsSub hp op) :
    Step1Prop (zeroMatIf (fun k => decide (k ∈ deadKeys op)) hp) op := by
  intro e2 he2 q2 hq2 hne
  obtain ⟨r, hmem, hrow⟩ := zeroMatIf_entry he2
  rw [hrow] at hq2
  obtain ⟨hq2r, hp2⟩ := zeroRowIf_nonzero hq2 hne
  have hnd : q2.1 ∉ deadKeys op := by simpa using hp2
  have hsome := hts (e2.1, r) hmem q2 hq2r
  obtain ⟨orow, ho⟩ := Option.isSome_iff_exists.mp hsome
  exact ⟨orow, ho, rowSum_ne_zero_of_not_dead ho hnd⟩

theorem step1_of_zeroMatIf {a b op : PMatrix} (hab : b = a ∨ ∃ p, b = zeroMatIf p a)
    (h : Step1Prop a op) : Step1Prop b op := by
  rcases hab with rfl | ⟨p, rfl⟩
  · exact h
  · intro e2 he2 q2 hq2 hne
    obtain ⟨r, hmem, hrow⟩ := zeroMatIf_entry he2
    rw [hrow] at hq2
    obtain ⟨hq2r, _⟩ := zeroRowIf_nonzero hq2 hne
    exact h (e2.1, r) hmem q2 hq2r hne

theorem matNonneg_of_zeroMatIf {a b : PMatrix}
    (hab : b = a ∨ ∃ p, b = zeroMatIf p a) (h : MatNonneg a) : MatNonneg b := by
  rcases hab with rfl | ⟨p, rfl⟩
  · exact h
  · exact MatNonneg_zeroMatIf h

theorem satInv_of_zeroMatIf {oracle : String → String → Bool} {c : Constraint}
    {a b : PMatrix} (hab : b = a ∨ ∃ p, b = zeroMatIf p a)
    (h : SatInv oracle c a) : SatInv oracle c b := by
  rcases hab with rfl | ⟨p, rfl⟩
  · exact h
  · exact satInv_of_zeroPres (zeroPresMat_zeroMatIf p a) h

theorem targetsOf_zeroMatIf (P : String → Prop) {a b : PMatrix}
    (hab : b = a ∨ ∃ p, b = zeroMatIf p a)
    (h : ∀ e ∈ a, ∀ q ∈ e.2, P q.1) : ∀ e ∈ b, ∀ q ∈ e.2, P q.1 := by
  rcases hab with rfl | ⟨p, rfl⟩
  · exact h
  · intro e2 he2 q2 hq2
    obtain ⟨r, hmem, hrow⟩ := zeroMatIf_entry he2
    rw [hrow] at hq2
    obtain ⟨q, hq, hk, _⟩ := zeroRowIf_entry hq2
    rw [hk]
    exact h (e2.1, r) hmem q hq

theorem removeDeadHidden_rel : ∀ hps : List PMatrix,
    List.Forall₂ (fun a b => b = a ∨ ∃ p, b = zeroMatIf p a) hps
      (removeDeadHidden hps)
  | [] => List.Forall₂.nil
  | [h] => List.Forall₂.cons (Or.inl rfl) List.Forall₂.nil
  | h :: g :: t => by
    have ih := removeDeadHidden_rel (g :: t)
    unfold removeDeadHidden
    cases hgd : removeDeadHidden (g :: t) with
    | nil =>
      rw [hgd] at ih
      cases ih
    | cons gdone tdone =>
      rw [hgd] at ih
      exact List.Forall₂.cons (Or.inr ⟨_, rfl⟩) ih

theorem removeDeadHidden_chain : ∀ hps : List PMatrix,
    ChainH (removeDeadHidden hps)
  | [] => trivial
  | [h] => trivial
  | h :: g :: t => by
    have ih := removeDeadHidden_chain (g :: t)
    unfold removeDeadHidden
    cases hgd : removeDeadHidden (g :: t) with
    | nil => trivial
    | cons gdone tdone =>
      rw [hgd] at ih
      refine ⟨?_, ih⟩
      intro e2 he2 q2 hq2 hne
      obtain ⟨r, hmem, hrow⟩ := zeroMatIf_entry he2
      rw [hrow] at hq2
      obtain ⟨hq2r, hp2⟩ := zeroRowIf_nonzero hq2 hne
      have hboth := hp2
      rw [Bool.or_eq_false_iff] at hboth
      have hnd : q2.1 ∉ deadKeys gdone := by simpa using hboth.1
      have hsome : (alookup q2.1 gdone).isSome := by
        have hnn := hboth.2
        cases hx : alookup q2.1 gdone with
        | none =>
          rw [hx] at hnn
          simp at hnn
        | some v => rfl
      obtain ⟨nrow, hn⟩ := Option.isSome_iff_exists.mp hsome
      exact ⟨nrow, hn, rowSum_ne_zero_of_not_dead hn hnd⟩


/-! ## Pipeline assembly -/

/-! ## Remaining stage lemmas -/

theorem forall2_flip {R : α → β → Prop} {as : List α} {bs : List β}
    (h : List.Forall₂ R as bs) : List.Forall₂ (fun b a => R a b) bs as := by
  induction h with
  | nil => exact List.Forall₂.nil
  | cons hr _ ih => exact List.Forall₂.cons hr ih

theorem zeroMatIf_isSome (p : String → Bool) (d : PMatrix) (k : String) :
    (alookup k (zeroMatIf p d)).isSome = (alookup k d).isSome := by
  rw [alookup_zeroMatIf]
  cases alookup k d <;> rfl

theorem zeroPresMat_isSome {pre post : PMatrix} (h : ZeroPresMat pre post)
    (k : String) : (alookup k post).isSome = (alookup k pre).isSome := by
  induction h with
  | nil => rfl
  | cons hr _ ih =>
    unfold alookup
    rw [hr.1]
    split_ifs
    · rfl
    · exact ih

theorem forall2_step1 : ∀ (as bs : List PMatrix), as.length = bs.length →
    (∀ a ∈ as, ∀ b ∈ bs, TargetsSub a b) →
    List.Forall₂ Step1Prop (removeDeadObserved as bs) bs
  | [], [], _, _ => List.Forall₂.nil
  | a :: as, b :: bs, hlen, hts => by
    refine List.Forall₂.cons
      (step1_zeroMatIf (hts a (List.mem_cons_self ..) b (List.mem_cons_self ..)))
      (forall2_step1 as bs (by simpa using hlen) ?_)
    intro a2 ha2 b2 hb2
    exact hts a2 (List.mem_cons_of_mem _ ha2) b2 (List.mem_cons_of_mem _ hb2)

theorem forall2_rdo_rel : ∀ (as bs : List PMatrix), as.length = bs.length →
    List.Forall₂ (fun a c => c = a ∨ ∃ p, c = zeroMatIf p a) as
      (removeDeadObserved as bs)
  | [], [], _ => List.Forall₂.nil
  | a :: as, b :: bs, hlen =>
    List.Forall₂.cons (Or.inr ⟨_, rfl⟩)
      (forall2_rdo_rel as bs (by simpa using hlen))

theorem zip_map_fst_snd (l : List (α × β)) :
    (l.map (fun p => p.1)).zip (l.map (fun p => p.2)) = l := by
  induction l with
  | nil => rfl
  | cons p ps ih => simp [ih]

theorem removeDeadObserved_length (as bs : List PMatrix)
    (h : as.length = bs.length) : (removeDeadObserved as bs).length = as.length := by
  unfold removeDeadObserved
  rw [List.length_zipWith, h, min_self]

theorem removeDeadHidden_length (as : List PMatrix) :
    (removeDeadHidden as).length = as.length :=
  ((removeDeadHidden_rel as).length_eq).symm

theorem map_fst_zip2 : ∀ (as : List α) (bs : List β), as.length ≤ bs.length →
    (as.zip bs).map (fun x => x.1) = as
  | [], _, _ => rfl
  | a :: as, b :: bs, h =>
    congrArg (a :: ·) (map_fst_zip2 as bs (by simpa using h))
  | a :: as, [], h => by simp at h

/-- The full constrained-training pipeline (mask, dead-state removal,
renormalize) delivers, position by position, the trained invariants. -/
theorem pipeline_post (oracle : String → String → Bool) (bh bo : PMatrix)
    (hcs ocs : List Constraint) (L : ℕ)
    (hLh : hcs.length = L) (hLo : ocs.length = L)
    (hnnh : MatNonneg bh) (hnno : MatNonneg bo) (hts0 : TargetsSub bh bo) :
    renormAux
        ((remove_dead_states
            (List.zipWith (fun c d => maskMat oracle c d) hcs (List.replicate L bh))
            (List.zipWith (fun c d => maskMat oracle c d) ocs (List.replicate L bo))).zip
          (List.zipWith (fun c d => maskMat oracle c d) ocs (List.replicate L bo))) =
      some (renormSpec
        ((remove_dead_states
            (List.zipWith (fun c d => maskMat oracle c d) hcs (List.replicate L bh))
            (List.zipWith (fun c d => maskMat oracle c d) ocs (List.replicate L bo))).zip
          (List.zipWith (fun c d => maskMat oracle c d) ocs (List.replicate L bo)))) ∧
    List.Forall₂ (TrainedPosOK oracle bo) (hcs.zip ocs)
      (renormSpec
        ((remove_dead_states
            (List.zipWith (fun c d => maskMat oracle c d) hcs (List.replicate L bh))
            (List.zipWith (fun c d => maskMat oracle c d) ocs (List.replicate L bo))).zip
          (List.zipWith (fun c d => maskMat oracle c d) ocs (List.replicate L bo)))).1 := by
  simp only [remove_dead_states]
  set A := List.zipWith (fun c d => maskMat oracle c d) hcs (List.replicate L bh)
    with hA
  set B := List.zipWith (fun c d => maskMat oracle c d) ocs (List.replicate L bo)
    with hB
  set A2 := removeDeadObserved A B with hA2
  set A3 := removeDeadHidden A2 with hA3
  have hAlen : A.length = L := by
    rw [hA, List.length_zipWith, hLh, List.length_replicate, min_self]
  have hBlen : B.length = L := by
    rw [hB, List.length_zipWith, hLo, List.length_replicate, min_self]
  have hABlen : A.length = B.length := by rw [hAlen, hBlen]
  have hA2len : A2.length = L := by
    rw [hA2, removeDeadObserved_length A B hABlen]
    exact hAlen
  have hA3len : A3.length = L := by
    rw [hA3, removeDeadHidden_length]
    exact hA2len
  have hFh : List.Forall₂ (fun c d => d = maskMat oracle c bh) hcs A :=
    hA ▸ forall2_zipWith_replicate bh hcs L hLh
  have hFo : List.Forall₂ (fun c d => d = maskMat oracle c bo) ocs B :=
    hB ▸ forall2_zipWith_replicate bo ocs L hLo
  have hElB : ∀ b ∈ B, MatNonneg b ∧
      ∀ k, (alookup k b).isSome = (alookup k bo).isSome := by
    intro b hb
    obtain ⟨c, hc, rfl⟩ := forall2_mem_right hFo hb
    exact ⟨MatNonneg_zeroMatIf hnno, fun k => zeroMatIf_isSome _ bo k⟩
  have hElA : ∀ a ∈ A, ∀ e ∈ a, ∀ q ∈ e.2, (alookup q.1 bo).isSome := by
    intro a ha
    obtain ⟨c, hc, rfl⟩ := forall2_mem_right hFh ha
    exact targetsOf_zeroMatIf (fun k => (alookup k bo).isSome = true)
      (Or.inr ⟨_, rfl⟩) (fun e he q hq => hts0 e he q hq)
  have hElAnn : ∀ a ∈ A, MatNonneg a := by
    intro a ha
    obtain ⟨c, hc, rfl⟩ := forall2_mem_right hFh ha
    exact MatNonneg_zeroMatIf hnnh
  have hElA2 : ∀ a ∈ A2, (∀ e ∈ a, ∀ q ∈ e.2, (alookup q.1 bo).isSome) ∧
      MatNonneg a := by
    intro a ha
    obtain ⟨a0, ha0, hrel⟩ := forall2_mem_right (forall2_rdo_rel A B hABlen) ha
    exact ⟨targetsOf_zeroMatIf (fun k => (alookup k bo).isSome = true) hrel
      (hElA a0 ha0), matNonneg_of_zeroMatIf hrel (hElAnn a0 ha0)⟩
  have hElA3 : ∀ a ∈ A3, (∀ e ∈ a, ∀ q ∈ e.2, (alookup q.1 bo).isSome) ∧
      MatNonneg a := by
    intro a ha
    obtain ⟨a0, ha0, hrel⟩ := forall2_mem_right (removeDeadHidden_rel A2) ha
    exact ⟨targetsOf_zeroMatIf (fun k => (alookup k bo).isSome = true) hrel
      (hElA2 a0 ha0).1, matNonneg_of_zeroMatIf hrel (hElA2 a0 ha0).2⟩
  have hCrossAB : ∀ a ∈ A, ∀ b ∈ B, TargetsSub a b := by
    intro a ha b hb e he q hq
    rw [(hElB b hb).2 q.1]
    exact hElA a ha e he q hq
  have hCross : ∀ a ∈ A3, ∀ b ∈ B, TargetsSub a b := by
    intro a ha b hb e he q hq
    rw [(hElB b hb).2 q.1]
    exact (hElA3 a ha).1 e he q hq
  have hZipTS : ∀ x ∈ A3.zip B, TargetsSub x.1 x.2 := by
    intro x hx
    obtain ⟨a, b⟩ := x
    have hm := List.mem_zip hx
    exact hCross a hm.1 b hm.2
  have hStep1A2 : List.Forall₂ Step1Prop A2 B :=
    hA2 ▸ forall2_step1 A B hABlen hCrossAB
  have hStep1 : List.Forall₂ Step1Prop A3 B :=
    forall2_comp (forall2_flip (removeDeadHidden_rel A2)) hStep1A2
      (fun a3 a2 b hrel h1 => step1_of_zeroMatIf hrel h1)
  have hGood : ∀ x ∈ A3.zip B, GoodPos x := by
    intro x hx
    obtain ⟨a, b⟩ := x
    have hm := List.mem_zip hx
    exact ⟨(hElA3 a hm.1).2, (hElB b hm.2).1, hCross a hm.1 b hm.2,
      (List.forall₂_iff_zip.mp hStep1).2 hx⟩
  have hChain : ChainH ((A3.zip B).map (fun x => x.1)) := by
    rw [map_fst_zip2 A3 B (by rw [hA3len, hBlen])]
    exact removeDeadHidden_chain A2
  have hEq := renormAux_eq_spec (A3.zip B) hZipTS
  have hSatH : List.Forall₂ (fun c a => SatInv oracle c a) hcs A3 := by
    have h1 : List.Forall₂ (fun c a => SatInv oracle c a) hcs A :=
      hFh.imp (fun {c a} h => h ▸ satInv_maskMat oracle c bh)
    have h2 : List.Forall₂ (fun c a => SatInv oracle c a) hcs A2 :=
      forall2_comp h1 (forall2_rdo_rel A B hABlen)
        (fun c a b hr hrel => satInv_of_zeroMatIf hrel hr)
    exact forall2_comp h2 (removeDeadHidden_rel A2)
      (fun c a b hr hrel => satInv_of_zeroMatIf hrel hr)
  have hSatO : List.Forall₂ (fun c b => SatInv oracle c b ∧
      ∀ k, (alookup k b).isSome → (alookup k bo).isSome) ocs B := by
    refine hFo.imp (fun {c b} h => ?_)
    subst h
    refine ⟨satInv_maskMat oracle c bo, fun k hk => ?_⟩
    rw [← zeroMatIf_isSome (fun k => !isSat oracle c k) bo k]
    exact hk
  have hPre : List.Forall₂ (fun c p => SatInv oracle c.1 p.1 ∧
      SatInv oracle c.2 p.2 ∧
      ∀ k, (alookup k p.2).isSome → (alookup k bo).isSome)
      (hcs.zip ocs) (A3.zip B) := by
    have := forall2_zip_both hSatH hSatO
    exact this.imp (fun {c p} h => ⟨h.1, h.2.1, h.2.2⟩)
  obtain ⟨hPost, _⟩ := renormSpec_invariants (A3.zip B) hGood hChain
  refine ⟨hEq, ?_⟩
  refine forall2_comp hPre hPost ?_
  intro c p y hpre hpost
  obtain ⟨hn1, hn2, hemit, hzp1, hzp2⟩ := hpost
  refine ⟨hn1, hn2, hemit, satInv_of_zeroPres hzp1 hpre.1,
    satInv_of_zeroPres hzp2 hpre.2.1, fun k hk => hpre.2.2 k ?_⟩
  rw [← zeroPresMat_isSome hzp2 k]
  exact hk


/-- Everything `ConstrainedHiddenMarkov::train` guarantees per position, for
any model whose constraint lists match its length and whose base model is
well formed. -/
theorem train_post (oracle : String → String → Bool)
    (m m2 : ConstrainedHiddenMarkov)
    (hLh : m.hidden_constraints.length = m.sequence_length)
    (hLo : m.observed_constraints.length = m.sequence_length)
    (hwf : WFBase m.hidden_markov_model)
    (htrain : m.train oracle = some m2) :
    m2.hidden_markov_model = m.hidden_markov_model ∧
    m2.hidden_constraints = m.hidden_constraints ∧
    m2.observed_constraints = m.observed_constraints ∧
    List.Forall₂ (TrainedPosOK oracle m.hidden_markov_model.observed_probs)
      (m.hidden_constraints.zip m.observed_constraints)
      (m2.hidden_probs.zip m2.observed_probs) := by
  obtain ⟨hEq, hPost⟩ := pipeline_post oracle m.hidden_markov_model.hidden_probs
    m.hidden_markov_model.observed_probs m.hidden_constraints
    m.observed_constraints m.sequence_length hLh hLo hwf.1 hwf.2.1 hwf.2.2
  unfold ConstrainedHiddenMarkov.train at htrain
  rw [hEq] at htrain
  simp only [Option.map_some', Option.some.injEq] at htrain
  subst htrain
  refine ⟨rfl, rfl, rfl, ?_⟩
  simp only []
  rw [zip_map_fst_snd]
  exact hPost


theorem train_probs_length (oracle : String → String → Bool)
    (m m2 : ConstrainedHiddenMarkov) (htrain : m.train oracle = some m2) :
    m2.hidden_probs.length = m2.observed_probs.length := by
  unfold ConstrainedHiddenMarkov.train at htrain
  obtain ⟨r, -, rfl⟩ := Option.map_eq_some'.mp htrain
  simp

theorem new_model_eq (hmm : HiddenMarkov) (L : ℕ)
    (hcs ocs : Option (List Constraint)) (m : ConstrainedHiddenMarkov)
    (h : ConstrainedHiddenMarkov.new hmm L hcs ocs = some m) :
    m.hidden_markov_model = hmm := by
  unfold ConstrainedHiddenMarkov.new at h
  split_ifs at h
  all_goals cases h
  rfl

theorem exists_zip_mem_left {as : List α} {bs : List β}
    (h : as.length = bs.length) {a : α} (ha : a ∈ as) :
    ∃ b, (a, b) ∈ as.zip bs := by
  induction as generalizing bs with
  | nil => simp at ha
  | cons x xs ih =>
    cases bs with
    | nil => simp at h
    | cons y ys =>
      rcases List.mem_cons.mp ha with rfl | ha2
      · exact ⟨y, List.mem_cons_self ..⟩
      · obtain ⟨b, hb⟩ := ih (by simpa using h) ha2
        exact ⟨b, List.mem_cons_of_mem _ hb⟩

theorem exists_zip_mem_right {as : List α} {bs : List β}
    (h : as.length = bs.length) {b : β} (hb : b ∈ bs) :
    ∃ a, (a, b) ∈ as.zip bs := by
  induction bs generalizing as with
  | nil => simp at hb
  | cons y ys ih =>
    cases as with
    | nil => simp at h
    | cons x xs =>
      rcases List.mem_cons.mp hb with rfl | hb2
      · exact ⟨x, List.mem_cons_self ..⟩
      · obtain ⟨a, ha⟩ := ih (by simpa using h) hb2
        exact ⟨a, List.mem_cons_of_mem _ ha⟩

/-- Claim C1: for every constrained model built by `new` from a well-formed
base model, after `train()` every hidden-context row of every positional
transition matrix sums to one or is entirely zero, and likewise for every
row of every positional emission matrix (exactly, over ℚ, hence within any
tolerance). -/
theorem normalization_invariant (oracle : String → String → Bool)
    (base : HiddenMarkov) (L : ℕ) (hcs ocs : Option (List Constraint))
    (m m2 : ConstrainedHiddenMarkov)
    (hwf : WFBase base)
    (hnew : ConstrainedHiddenMarkov.new base L hcs ocs = some m)
    (htrain : m.train oracle = some m2) :
    (∀ d ∈ m2.hidden_probs, NormedMat d) ∧
    (∀ d ∈ m2.observed_probs, NormedMat d) := by
  obtain ⟨hseq, hlh, hlo, -⟩ := new_some_fields base L hcs ocs m hnew
  have hmodel : m.hidden_markov_model = base := new_model_eq base L hcs ocs m hnew
  have hlen2 := train_probs_length oracle m m2 htrain
  obtain ⟨-, -, -, hPost⟩ := train_post oracle m m2 (hlh.trans hseq.symm)
    (hlo.trans hseq.symm) (by rw [hmodel]; exact hwf) htrain
  constructor
  · intro d hd
    obtain ⟨b, hb⟩ := exists_zip_mem_left hlen2 hd
    obtain ⟨c, -, hok⟩ := forall2_mem_right hPost hb
    exact hok.1
  · intro d hd
    obtain ⟨a, ha⟩ := exists_zip_mem_right hlen2 hd
    obtain ⟨c, -, hok⟩ := forall2_mem_right hPost ha
    exact hok.2.1

unseal Rat.add Rat.mul Rat.inv in
/-- Witness for C1 at the concrete scenario. -/
theorem normalization_invariant_witness :
    WFBase base4 ∧
    ConstrainedHiddenMarkov.new base4 4 none (some obsCons4) = some cm4 ∧
    cm4.train noOracle = some cm4t ∧
    ((∀ d ∈ cm4t.hidden_probs, NormedMat d) ∧
     (∀ d ∈ cm4t.observed_probs, NormedMat d)) :=
  ⟨by decide, by rfl, by rfl,
   normalization_invariant noOracle base4 4 none (some obsCons4) cm4 cm4t
     (by decide) (by rfl) (by rfl)⟩


theorem zeroRowIf_id (p : String → Bool) (r : Row)
    (h : ∀ q ∈ r, p q.1 = false) : zeroRowIf p r = r := by
  unfold zeroRowIf
  have h2 : ∀ q ∈ r, (fun q => if p q.1 then (q.1, (0 : Prob)) else q) q = id q :=
    fun q hq => by dsimp only; rw [h q hq]; rfl
  rw [List.map_congr_left h2, List.map_id]

theorem zeroMatIf_id (p : String → Bool) (d : PMatrix)
    (h : ∀ e ∈ d, ∀ q ∈ e.2, p q.1 = false) : zeroMatIf p d = d := by
  unfold zeroMatIf
  have h2 : ∀ e ∈ d, (fun e => (e.1, zeroRowIf p e.2)) e = id e :=
    fun e he => by dsimp only; rw [zeroRowIf_id p e.2 (h e he)]; exact Prod.mk.eta
  rw [List.map_congr_left h2, List.map_id]

theorem maskMat_empty (oracle : String → String → Bool) (d : PMatrix) :
    maskMat oracle .empty d = d :=
  zeroMatIf_id _ d (fun e _ q _ => by simp [isSat])

theorem filter_dead_nil : ∀ d : PMatrix, (∀ e ∈ d, rowSum e.2 ≠ 0) →
    d.filter (fun e => decide (rowSum e.2 = 0)) = []
  | [], _ => rfl
  | e :: es, h => by
    have h0 := h e (List.mem_cons_self ..)
    simp only [List.filter_cons, h0, decide_False]
    exact filter_dead_nil es (fun x hx => h x (List.mem_cons_of_mem _ hx))

theorem deadKeys_nil {d : PMatrix} (h : AllOneMat d) : deadKeys d = [] := by
  unfold deadKeys
  rw [filter_dead_nil d (fun e he => by rw [h e he]; exact one_ne_zero)]
  rfl

theorem zipWith_replicate_same (f : α → β → γ) (a : α) (b : β) :
    ∀ n, List.zipWith f (List.replicate n a) (List.replicate n b) =
      List.replicate n (f a b)
  | 0 => rfl
  | n + 1 => by
    simp only [List.replicate_succ, List.zipWith_cons_cons,
      zipWith_replicate_same f a b n]

theorem zip_replicate_same (a : α) (b : β) :
    ∀ n, (List.replicate n a).zip (List.replicate n b) = List.replicate n (a, b)
  | 0 => rfl
  | n + 1 => by
    simp only [List.replicate_succ, List.zip_cons_cons, zip_replicate_same a b n]

theorem removeDeadObserved_replicate (bh bo : PMatrix) (hdk : deadKeys bo = [])
    (n : ℕ) : removeDeadObserved (List.replicate n bh) (List.replicate n bo) =
      List.replicate n bh := by
  unfold removeDeadObserved
  rw [zipWith_replicate_same]
  have hz : zeroMatIf (fun k => decide (k ∈ deadKeys bo)) bh = bh :=
    zeroMatIf_id _ bh (fun e _ q _ => by rw [hdk]; simp)
  rw [hz]

theorem removeDeadHidden_replicate (bh : PMatrix) (hdk : deadKeys bh = [])
    (hsc : SelfClosed bh) :
    ∀ n, removeDeadHidden (List.replicate n bh) = List.replicate n bh
  | 0 => rfl
  | 1 => rfl
  | n + 2 => by
    have ih := removeDeadHidden_replicate bh hdk hsc (n + 1)
    have hz : zeroMatIf
        (fun k => decide (k ∈ deadKeys bh) || (alookup k bh).isNone) bh = bh := by
      refine zeroMatIf_id _ bh (fun e he q hq => ?_)
      have h1 := hsc e he q hq
      rw [hdk]
      cases hx : alookup q.1 bh with
      | none => rw [hx] at h1; simp at h1
      | some v => simp [hx]
    have ih2 : removeDeadHidden (bh :: List.replicate n bh) =
        bh :: List.replicate n bh := by
      rw [← List.replicate_succ]; exact ih
    show removeDeadHidden (List.replicate (n + 2) bh) = _
    rw [List.replicate_succ, List.replicate_succ]
    unfold removeDeadHidden
    rw [ih2]
    dsimp only
    rw [hz]

theorem facFor_one {betas : Row} {an : Option Row} {k : String}
    (hb : alookup k betas = some 1)
    (ha : ∀ an2, an = some an2 → alookup k an2 = some 1) :
    facFor betas an k = 1 := by
  unfold facFor
  cases an with
  | none => rw [hb]; rfl
  | some an2 => dsimp only; rw [hb, ha an2 rfl]; simp

theorem rowAlpha_eq_rowSum {betas : Row} {an : Option Row} {r : Row}
    (h : ∀ q ∈ r, facFor betas an q.1 = 1) :
    rowAlpha betas an r = rowSum r := by
  unfold rowAlpha rowSum
  congr 1
  refine List.map_congr_left (fun q hq => ?_)
  rw [h q hq, one_mul]

theorem rowRenorm_id {betas : Row} {an : Option Row} {r : Row}
    (h : ∀ q ∈ r, facFor betas an q.1 = 1) (h1 : rowSum r = 1) :
    rowRenorm betas an r = r := by
  unfold rowRenorm
  rw [rowAlpha_eq_rowSum h, h1, if_neg one_ne_zero]
  have h2 : ∀ q ∈ r, (fun q => (q.1, facFor betas an q.1 * q.2 / 1)) q = id q :=
    fun q hq => by dsimp only; rw [h q hq, one_mul, div_one]; exact Prod.mk.eta
  rw [List.map_congr_left h2, List.map_id]

theorem rowNormalize_id {r : Row} (h1 : rowSum r = 1) : rowNormalize r = r := by
  unfold rowNormalize
  rw [h1, if_neg one_ne_zero]
  have h2 : ∀ q ∈ r, (fun q => (q.1, q.2 / 1)) q = id q :=
    fun q hq => by dsimp only; rw [div_one]; exact Prod.mk.eta
  rw [List.map_congr_left h2, List.map_id]

theorem matMap_rowNormalize_id {d : PMatrix} (h : AllOneMat d) :
    d.map (fun e => (e.1, rowNormalize e.2)) = d := by
  have h2 : ∀ e ∈ d, (fun e => (e.1, rowNormalize e.2)) e = id e :=
    fun e he => by dsimp only; rw [rowNormalize_id (h e he)]; exact Prod.mk.eta
  rw [List.map_congr_left h2, List.map_id]

theorem betas_one {bo : PMatrix} (h2 : AllOneMat bo) {k : String}
    (hk : (alookup k bo).isSome = true) :
    alookup k (bo.map (fun o => (o.1, rowSum o.2))) = some 1 := by
  rw [alookup_betas]
  cases hx : alookup k bo with
  | none => rw [hx] at hk; simp at hk
  | some orow =>
    rw [Option.map_some']
    rw [h2 (k, orow) (alookup_mem hx)]

theorem alookup_const_one : ∀ (bh : PMatrix) (k : String),
    (alookup k bh).isSome = true →
    alookup k (bh.map (fun e => (e.1, (1 : Prob)))) = some 1
  | [], k, hk => by simp [alookup] at hk
  | e :: es, k, hk => by
    by_cases h : e.1 = k
    · simp [alookup, h]
    · simp only [alookup, h, if_false] at hk
      simp only [List.map_cons, alookup, h, if_false]
      exact alookup_const_one es k hk

theorem renormSpec_replicate (bh bo : PMatrix)
    (h1 : AllOneMat bh) (h2 : AllOneMat bo) (hts : TargetsSub bh bo)
    (hsc : SelfClosed bh) :
    ∀ n, renormSpec (List.replicate (n + 1) ((bh, bo) : PMatrix × PMatrix)) =
      (List.replicate (n + 1) (bh, bo), bh.map (fun e => (e.1, (1 : Prob))))
  | 0 => by
    have hfac : ∀ e ∈ bh, ∀ q ∈ e.2,
        facFor (bo.map (fun o => (o.1, rowSum o.2))) none q.1 = 1 :=
      fun e he q hq => facFor_one (betas_one h2 (hts e he q hq))
        (fun an2 han => by cases han)
    have hH : bh.map (fun e =>
        (e.1, rowRenorm (bo.map (fun o => (o.1, rowSum o.2))) none e.2)) = bh := by
      have hx : ∀ e ∈ bh, (fun e =>
          (e.1, rowRenorm (bo.map (fun o => (o.1, rowSum o.2))) none e.2)) e =
            id e :=
        fun e he => by
          dsimp only
          rw [rowRenorm_id (fun q hq => hfac e he q hq) (h1 e he)]
          exact Prod.mk.eta
      rw [List.map_congr_left hx, List.map_id]
    have hA : bh.map (fun e =>
        (e.1, rowAlpha (bo.map (fun o => (o.1, rowSum o.2))) none e.2)) =
          bh.map (fun e => (e.1, (1 : Prob))) := by
      refine List.map_congr_left (fun e he => ?_)
      rw [rowAlpha_eq_rowSum (fun q hq => hfac e he q hq), h1 e he]
    show renormSpec [(bh, bo)] = ([(bh, bo)], bh.map (fun e => (e.1, (1 : Prob))))
    unfold renormSpec
    rw [hH, hA, matMap_rowNormalize_id h2]
  | n + 1 => by
    have ih := renormSpec_replicate bh bo h1 h2 hts hsc n
    have hfac : ∀ e ∈ bh, ∀ q ∈ e.2,
        facFor (bo.map (fun o => (o.1, rowSum o.2)))
          (some (bh.map (fun e => (e.1, (1 : Prob))))) q.1 = 1 :=
      fun e he q hq => facFor_one (betas_one h2 (hts e he q hq))
        (fun an2 han => by
          cases han
          exact alookup_const_one bh q.1 (hsc e he q hq))
    have hH : bh.map (fun e =>
        (e.1, rowRenorm (bo.map (fun o => (o.1, rowSum o.2)))
          (some (bh.map (fun e => (e.1, (1 : Prob))))) e.2)) = bh := by
      have hx : ∀ e ∈ bh, (fun e =>
          (e.1, rowRenorm (bo.map (fun o => (o.1, rowSum o.2)))
            (some (bh.map (fun e => (e.1, (1 : Prob))))) e.2)) e = id e :=
        fun e he => by
          dsimp only
          rw [rowRenorm_id (fun q hq => hfac e he q hq) (h1 e he)]
          exact Prod.mk.eta
      rw [List.map_congr_left hx, List.map_id]
    have hA : bh.map (fun e =>
        (e.1, rowAlpha (bo.map (fun o => (o.1, rowSum o.2)))
          (some (bh.map (fun e => (e.1, (1 : Prob))))) e.2)) =
          bh.map (fun e => (e.1, (1 : Prob))) := by
      refine List.map_congr_left (fun e he => ?_)
      rw [rowAlpha_eq_rowSum (fun q hq => hfac e he q hq), h1 e he]
    have ih2 : renormSpec ((bh, bo) :: List.replicate n (bh, bo)) =
        (List.replicate (n + 1) (bh, bo), bh.map (fun e => (e.1, (1 : Prob)))) := by
      rw [← List.replicate_succ]; exact ih
    show renormSpec (List.replicate (n + 2) (bh, bo)) = _
    rw [List.replicate_succ, List.replicate_succ]
    unfold renormSpec
    rw [ih2]
    dsimp only
    rw [hH, hA, matMap_rowNormalize_id h2]
    simp only [List.replicate_succ]

theorem new_none_fields (base : HiddenMarkov) (L : ℕ)
    (m : ConstrainedHiddenMarkov)
    (h : ConstrainedHiddenMarkov.new base L none none = some m) :
    m = ⟨base, L, [], [], List.replicate L .empty, List.replicate L .empty⟩ ∧
      1 < L := by
  unfold ConstrainedHiddenMarkov.new at h
  split_ifs at h with hL hc
  cases h
  refine ⟨?_, Nat.lt_of_not_le hL⟩
  rfl


/-- Claim C2 (amended): the no-op round-trip holds under the additional
hypotheses that every transition and emission row of the base model sums to
exactly one, every transition target has an emission row, and every
transition target is itself a transition context; then training with
all-`Empty` constraints reproduces the base matrices exactly at every
position.  (Without these hypotheses the claim is false: dead-state removal
prunes sink contexts and renormalization redistributes their mass, see the
counterexample.) -/
theorem noop_roundtrip (oracle : String → String → Bool)
    (base : HiddenMarkov) (L : ℕ) (m m2 : ConstrainedHiddenMarkov)
    (h1 : AllOneMat base.hidden_probs) (h2 : AllOneMat base.observed_probs)
    (hts : TargetsSub base.hidden_probs base.observed_probs)
    (hsc : SelfClosed base.hidden_probs)
    (hnew : ConstrainedHiddenMarkov.new base L none none = some m)
    (htrain : m.train oracle = some m2) :
    m2.hidden_probs = List.replicate L base.hidden_probs ∧
    m2.observed_probs = List.replicate L base.observed_probs := by
  obtain ⟨rfl, hL⟩ := new_none_fields base L m hnew
  unfold ConstrainedHiddenMarkov.train at htrain
  dsimp only at htrain
  rw [zipWith_replicate_same, zipWith_replicate_same] at htrain
  rw [maskMat_empty, maskMat_empty] at htrain
  have hrds : remove_dead_states (List.replicate L base.hidden_probs)
      (List.replicate L base.observed_probs) =
        List.replicate L base.hidden_probs := by
    unfold remove_dead_states
    rw [removeDeadObserved_replicate _ _ (deadKeys_nil h2)]
    exact removeDeadHidden_replicate _ (deadKeys_nil h1) hsc L
  rw [hrds, zip_replicate_same] at htrain
  have hra : renormAux (List.replicate L
      ((base.hidden_probs, base.observed_probs) : PMatrix × PMatrix)) =
        some (renormSpec (List.replicate L
          (base.hidden_probs, base.observed_probs))) :=
    renormAux_eq_spec _ (fun x hx => by
      rw [List.eq_of_mem_replicate hx]; exact hts)
  rw [hra] at htrain
  obtain ⟨L2, rfl⟩ : ∃ L2, L = L2 + 1 := ⟨L - 1, by omega⟩
  rw [renormSpec_replicate base.hidden_probs base.observed_probs h1 h2 hts hsc
    L2] at htrain
  simp only [Option.map_some', Option.some.injEq] at htrain
  subst htrain
  constructor
  · show (List.replicate (L2 + 1)
        (base.hidden_probs, base.observed_probs)).map (fun p => p.1) = _
    rw [List.map_replicate]
  · show (List.replicate (L2 + 1)
        (base.hidden_probs, base.observed_probs)).map (fun p => p.2) = _
    rw [List.map_replicate]

unseal Rat.add Rat.mul Rat.inv in
/-- Claim C2 (counterexample): over the four-line test corpus, the model
with all-`Empty` hidden and observed constraints and length 4 does not
round-trip: after training, position 2's transition weight
`hiddenProbs[2]["VBZ"]["NNP"]` is 1 while the base model's is 1/4, a
difference far above 1e-9 (the base corpus is well formed: it is exactly
the corpus of the repository's own tests). -/
theorem noop_roundtrip_counterexample :
    HiddenMarkov.new 1 corpus4 = some base4 ∧
    ConstrainedHiddenMarkov.new base4 4 none none = some cmE ∧
    cmE.hidden_constraints = List.replicate 4 Constraint.empty ∧
    cmE.observed_constraints = List.replicate 4 Constraint.empty ∧
    cmE.train noOracle = some cmEt ∧
    alookup "NNP" ((alookup "VBZ" (cmEt.hidden_probs.getD 2 [])).getD [])
      = some 1 ∧
    alookup "NNP" ((alookup "VBZ" base4.hidden_probs).getD [])
      = some (1 / 4) ∧
    ¬((1 : Prob) - 1 / 4 ≤ 1 / 1000000000) :=
  ⟨by rfl, by rfl, by rfl, by rfl, by rfl, by rfl, by rfl, by norm_num⟩

unseal Rat.add Rat.mul Rat.inv in
/-- Witness for the amended C2 theorem at the two-line corpus `a:X b:X`. -/
theorem noop_roundtrip_witness :
    AllOneMat base2.hidden_probs ∧ AllOneMat base2.observed_probs ∧
    TargetsSub base2.hidden_probs base2.observed_probs ∧
    SelfClosed base2.hidden_probs ∧
    ConstrainedHiddenMarkov.new base2 2 none none = some cm2 ∧
    cm2.train noOracle = some cm2t ∧
    (cm2t.hidden_probs = List.replicate 2 base2.hidden_probs ∧
     cm2t.observed_probs = List.replicate 2 base2.observed_probs) :=
  ⟨by decide, by decide, by decide, by decide, by rfl, by rfl,
   noop_roundtrip noOracle base2 2 cm2 cm2t (by decide) (by decide)
     (by decide) (by decide) (by rfl) (by rfl)⟩


/-- Claim C6 (amended): at the last position, `renormalize` computes
`alpha[L-1][j]` not as `beta[L-1][j]` but as the beta-weighted sum of row
`j`'s transition weights: `alpha[j] = sum_k beta[k] * z_jk` (`rowAlpha` with
no next-position alphas); the claimed identity `alpha[j] = beta[j]` fails in
general (see the counterexample). -/
theorem last_position_alpha (hp op : PMatrix) (hts : TargetsSub hp op) :
    renormAux [(hp, op)] = some (renormSpec [(hp, op)]) ∧
    (renormSpec [(hp, op)]).2 = hp.map (fun e =>
      (e.1, rowAlpha (op.map (fun o => (o.1, rowSum o.2))) none e.2)) :=
  ⟨renormAux_eq_spec _ (fun x hx => by
      rcases List.mem_singleton.mp hx with rfl
      exact hts), rfl⟩

unseal Rat.add Rat.mul Rat.inv in
/-- Claim C6 (counterexample): in the concrete scenario's last position,
the hidden key `"VBZ"` has normalizer `alpha = 1/2` while its masked
emission weights sum to `beta = 0` (the `Matches("red")` constraint zeroes
`VBZ`'s emission row), so `alpha[L-1][key] = beta[L-1][key]` is false. -/
theorem last_alpha_counterexample :
    (alookup "VBZ" lastH4).isSome = true ∧
    alookup "VBZ" r4.2 = some (1 / 2) ∧
    alookup "VBZ" (lastO4.map (fun o => (o.1, rowSum o.2))) = some 0 ∧
    some ((1 : Prob) / 2) ≠ some (0 : Prob) :=
  ⟨by rfl, by rfl, by rfl, by norm_num⟩

unseal Rat.add Rat.mul Rat.inv in
/-- Witness for the amended C6 theorem at the concrete scenario's last
position. -/
theorem last_position_alpha_witness :
    TargetsSub lastH4 lastO4 ∧
    (renormAux [(lastH4, lastO4)] = some (renormSpec [(lastH4, lastO4)]) ∧
     (renormSpec [(lastH4, lastO4)]).2 = lastH4.map (fun e =>
       (e.1, rowAlpha (lastO4.map (fun o => (o.1, rowSum o.2))) none e.2))) :=
  ⟨by decide, last_position_alpha lastH4 lastO4 (by decide)⟩

theorem nextTokenAux_spec : ∀ (row : Row) (r s : Prob), s ≤ r →
    (nextTokenAux r row s = "" ∧ s + rowSum row ≤ r) ∨
    (∃ q ∈ row, nextTokenAux r row s = q.1 ∧ q.2 ≠ 0)
  | [], r, s, h => Or.inl ⟨rfl, by simpa [rowSum] using h⟩
  | q :: qs, r, s, h => by
    unfold nextTokenAux
    by_cases hc : s + q.2 > r
    · right
      refine ⟨q, List.mem_cons_self .., by rw [if_pos hc], ?_⟩
      intro h0
      rw [h0, add_zero] at hc
      exact absurd hc (not_lt.mpr h)
    · rw [if_neg hc]
      rcases nextTokenAux_spec qs r (s + q.2) (not_lt.mp hc) with
        ⟨h1, h2⟩ | ⟨q2, hq2, h1, h2⟩
      · left
        refine ⟨h1, ?_⟩
        have hsum : rowSum (q :: qs) = q.2 + rowSum qs := by
          unfold rowSum
          simp
        rw [hsum, ← add_assoc]
        exact h2
      · exact Or.inr ⟨q2, List.mem_cons_of_mem _ hq2, h1, h2⟩

theorem next_token_pick {row : Row} {r : Prob} (h0 : 0 ≤ r)
    (hlt : r < rowSum row) :
    ∃ q ∈ row, next_token row r = q.1 ∧ q.2 ≠ 0 := by
  rcases nextTokenAux_spec row r 0 h0 with ⟨h1, h2⟩ | hq
  · rw [zero_add] at h2
    exact absurd hlt (not_lt.mpr h2)
  · exact hq

theorem next_token_zero_row {row : Row} {r : Prob} (h0 : 0 ≤ r)
    (hz : ∀ q ∈ row, q.2 = 0) : next_token row r = "" := by
  rcases nextTokenAux_spec row r 0 h0 with ⟨h1, h2⟩ | ⟨q, hq, h1, h2⟩
  · exact h1
  · exact absurd (hz q hq) h2

theorem sampleSeqAux_length_le : ∀ (ps : List (PMatrix × PMatrix))
    (cur : String) (rs : List Prob),
    (sampleSeqAux ps cur rs).length ≤ ps.length
  | [], _, _ => Nat.le_refl 0
  | x :: rest, cur, rs => by
    unfold sampleSeqAux
    cases alookup cur x.1 with
    | none => simp
    | some row =>
      dsimp only
      cases alookup (next_token row (rs.headD 0)) x.2 with
      | none =>
        exact Nat.le_succ_of_le (sampleSeqAux_length_le rest _ _)
      | some orow =>
        simpa using Nat.succ_le_succ (sampleSeqAux_length_le rest _ _)

theorem sampleSeqAux_sat (oracle : String → String → Bool) (bo : PMatrix)
    (hbo : alookup "" bo = none)
    (cs : List (Constraint × Constraint)) (ps : List (PMatrix × PMatrix))
    (hF : List.Forall₂ (TrainedPosOK oracle bo) cs ps) :
    ∀ (cur : String) (rs : List Prob),
    (∀ r ∈ rs, 0 ≤ r ∧ r < 1) →
    (sampleSeqAux ps cur rs).length = ps.length →
    List.Forall₂ (fun c t => isSat oracle c.2 t.1 = true ∧
      isSat oracle c.1 t.2 = true) cs (sampleSeqAux ps cur rs) := by
  induction hF with
  | nil => exact fun _ _ _ _ => List.Forall₂.nil
  | @cons c x cs2 ps2 hok hF2 ih =>
    intro cur rs hr hlen
    unfold sampleSeqAux at hlen ⊢
    cases hx : alookup cur x.1 with
    | none =>
      try rw [hx] at hlen
      simp at hlen
    | some row =>
      try rw [hx] at hlen
      try rw [hx]
      dsimp only at hlen ⊢
      have hrow_mem : (cur, row) ∈ x.1 := alookup_mem hx
      have hr0 : 0 ≤ rs.headD 0 ∧ rs.headD 0 < 1 := by
        cases rs with
        | nil => exact ⟨le_refl 0, zero_lt_one⟩
        | cons r rs2 => exact hr r (List.mem_cons_self ..)
      rcases hok.1 (cur, row) hrow_mem with hsum | hzero
      · obtain ⟨q, hq, hpick, hq0⟩ :=
          next_token_pick hr0.1 (by rw [hsum]; exact hr0.2)
        have hsat_h : isSat oracle c.1 q.1 = true :=
          hok.2.2.2.1 (cur, row) hrow_mem q hq hq0
        obtain ⟨orow, horow, hosum⟩ :=
          hok.2.2.1 (cur, row) hrow_mem q hq hq0
        rw [hpick, horow] at hlen ⊢
        dsimp only at hlen ⊢
        have hr1 : 0 ≤ rs.tail.headD 0 ∧ rs.tail.headD 0 < 1 := by
          cases ht : rs.tail with
          | nil => exact ⟨le_refl 0, zero_lt_one⟩
          | cons r rs2 =>
            refine hr r (List.mem_of_mem_tail ?_)
            rw [ht]
            exact List.mem_cons_self ..
        obtain ⟨q2, hq2, hpick2, hq20⟩ :=
          next_token_pick hr1.1 (by rw [hosum]; exact hr1.2)
        have horow_mem : (q.1, orow) ∈ x.2 := alookup_mem horow
        have hsat_s : isSat oracle c.2 q2.1 = true :=
          hok.2.2.2.2.1 (q.1, orow) horow_mem q2 hq2 hq20
        refine List.Forall₂.cons ⟨?_, hsat_h⟩ ?_
        · rw [hpick2]
          exact hsat_s
        · refine ih q.1 rs.tail.tail
            (fun r hr2 => hr r (List.mem_of_mem_tail (List.mem_of_mem_tail hr2)))
            ?_
          simpa using hlen
      · have hntz : next_token row (rs.headD 0) = "" :=
          next_token_zero_row hr0.1 (fun q hq => hzero q hq)
        rw [hntz] at hlen
        have hnone : alookup "" x.2 = none := by
          cases hy : alookup "" x.2 with
          | none => rfl
          | some v =>
            have hk := hok.2.2.2.2.2 "" (by rw [hy]; rfl)
            rw [hbo] at hk
            simp at hk
        rw [hnone] at hlen
        dsimp only at hlen
        have hle := sampleSeqAux_length_le ps2 "" rs.tail
        rw [List.length_cons] at hlen
        omega


/-- Claim C3 (amended): for a model built by `new` from a well-formed base
whose hidden labels do not include the empty string, and random draws in
`[0,1)`, any full-length output of `sample_sequence` after `train` satisfies,
at every position, the observed constraint on its surface token and the
hidden constraint on its hidden label.  (Without the empty-label hypothesis
the claim is false: `next_token` returns `""` as a fallback on all-zero
rows, and when `""` is a genuine hidden label the sampled full-length
sequence can violate the constraints, see the counterexample.) -/
theorem sample_constraint_satisfaction (oracle : String → String → Bool)
    (base : HiddenMarkov) (L : ℕ) (hcs ocs : Option (List Constraint))
    (m m2 : ConstrainedHiddenMarkov) (rs : List Prob)
    (hwf : WFBase base)
    (hbo : alookup "" base.observed_probs = none)
    (hnew : ConstrainedHiddenMarkov.new base L hcs ocs = some m)
    (htrain : m.train oracle = some m2)
    (hr : ∀ r ∈ rs, 0 ≤ r ∧ r < 1)
    (hfull : (sample_sequence m2 rs).length = L) :
    List.Forall₂ (fun c t => isSat oracle c.2 t.1 = true ∧
      isSat oracle c.1 t.2 = true)
      (m.hidden_constraints.zip m.observed_constraints)
      (sample_sequence m2 rs) := by
  obtain ⟨hseq, hlh, hlo, -⟩ := new_some_fields base L hcs ocs m hnew
  have hmodel : m.hidden_markov_model = base := new_model_eq base L hcs ocs m hnew
  obtain ⟨-, -, -, hPost⟩ := train_post oracle m m2 (hlh.trans hseq.symm)
    (hlo.trans hseq.symm) (by rw [hmodel]; exact hwf) htrain
  rw [hmodel] at hPost
  have hlenzip : (m2.hidden_probs.zip m2.observed_probs).length = L := by
    rw [← hPost.length_eq, List.length_zip, hlh, hlo]
    exact Nat.min_self L
  have hfull2 : (sampleSeqAux (m2.hidden_probs.zip m2.observed_probs)
      START_TOKEN rs).length = (m2.hidden_probs.zip m2.observed_probs).length := by
    rw [hlenzip]
    exact hfull
  exact sampleSeqAux_sat oracle base.observed_probs hbo _ _ hPost
    START_TOKEN rs hr hfull2

unseal Rat.add Rat.mul Rat.inv in
/-- Claim C3 (counterexample): over the corpus `a: b: c: d:` (whose only
hidden label is the empty string), the trained model with hidden constraint
`Matches("x")` at position 0 returns, for all-zero draws, a full-length
four-token sequence whose hidden label at position 0 is `""`, which does not
satisfy the constraint: `next_token`'s `""` fallback coincides with a
genuine hidden label and defeats the constraint masking. -/
theorem sample_constraint_violation :
    cmX.train noOracle = some cmXt ∧
    (sample_sequence cmXt [0, 0, 0, 0, 0, 0, 0, 0]).length =
      cmXt.sequence_length ∧
    ((sample_sequence cmXt [0, 0, 0, 0, 0, 0, 0, 0]).headD ("", "")).2 = "" ∧
    cmXt.hidden_constraints.headD .empty = Constraint.matches "x" ∧
    isSat noOracle (Constraint.matches "x") "" = false ∧
    (∀ r ∈ ([0, 0, 0, 0, 0, 0, 0, 0] : List Prob), 0 ≤ r ∧ r < 1) :=
  ⟨by rfl, by rfl, by rfl, by rfl, by rfl, by decide⟩

unseal Rat.add Rat.mul Rat.inv in
/-- Witness for the amended C3 theorem at the concrete scenario with
all-zero draws. -/
theorem sample_constraint_satisfaction_witness :
    WFBase base4 ∧
    alookup "" base4.observed_probs = none ∧
    ConstrainedHiddenMarkov.new base4 4 none (some obsCons4) = some cm4 ∧
    cm4.train noOracle = some cm4t ∧
    (∀ r ∈ ([0, 0, 0, 0, 0, 0, 0, 0] : List Prob), 0 ≤ r ∧ r < 1) ∧
    (sample_sequence cm4t [0, 0, 0, 0, 0, 0, 0, 0]).length = 4 ∧
    List.Forall₂ (fun c t => isSat noOracle c.2 t.1 = true ∧
      isSat noOracle c.1 t.2 = true)
      (cm4.hidden_constraints.zip cm4.observed_constraints)
      (sample_sequence cm4t [0, 0, 0, 0, 0, 0, 0, 0]) :=
  ⟨by decide, by rfl, by rfl, by rfl, by decide, by rfl,
   sample_constraint_satisfaction noOracle base4 4 none (some obsCons4) cm4
     cm4t [0, 0, 0, 0, 0, 0, 0, 0] (by decide) (by rfl) (by rfl) (by rfl)
     (by decide) (by rfl)⟩


end Chmm
